import Mathlib

/-!
Verification of the rule-evaluation engine in `engine.py` of the
`put_your_phone_away` repository.

The engine coordinates named capability providers ("concepts") through
declarative rules ("syncs").  Each external `invoke` dispatches an action on a
provider, appends an `ActionRecord` to the per-flow log, and then runs a
fixpoint evaluation: every sync's when-patterns are matched against the flow's
log, matching syncs produce further `(concept, action, params)` triples, and
each triple is invoked unless its canonical key — `(concept, action,
json.dumps(params, sort_keys=True, default=str))` — is already in the flow's
emitted-set.

The embedding below models:
* Python values that flow through input/output maps (`Value`), including a
  constructor `Value.obj` for a Python object that is not JSON-serializable
  and is therefore rendered through `default=str` (e.g. `bytes`, numpy
  arrays); it carries the object's `str()` rendering.
* `json.dumps(·, sort_keys=True, default=str)` as `dumps` — dict entries are
  sorted by key code-point-lexicographically (Python string `<`) and the
  result serialized with the standard separators `", "` and `": "` and
  `ensure_ascii` escaping.
* The engine itself (`Engine.invoke`, `Engine._evaluate_syncs`,
  `Engine._match_when`, `Frame`), for a single flow: all of
  `_evaluate_syncs`'s work is confined to one flow's log and emitted-set.
  Provider dispatch (`Concept.perform`, a `getattr` lookup followed by the
  call) is modeled as an uninterpreted function `String → ValueDict →
  Option (Option ValueDict)`: `none` for a failing dispatch (unknown action
  name, or an exception raised by the action), `some out` for a normal return
  (`out = none` when the Python function returns `None`).  Provider-internal
  state is out of the engine's scope (spec §1), so dispatch is quantified
  over arbitrary such functions in the theorems.
* The unbounded `while made_progress` loop of `_evaluate_syncs` with an
  explicit fuel parameter, one unit of fuel per evaluation pass; running out
  of fuel is a distinguished outcome `Res.fuelOut`, so termination claims are
  statements that enough fuel exists.
* Python's `uuid4` record ids and `time.time()` timestamps as a monotone
  per-flow counter (only freshness and monotonicity of these fields are ever
  relevant).

A ghost field `ruleCalls` in the engine state records the canonical key of
every rule-triggered invocation (the `self.invoke(...)` on line 113 of
`engine.py`); it is written exactly where that call happens and read by
nothing, so it is pure instrumentation for stating the deduplication claims.
-/

mutual
/-- A Python value as it appears in the engine's input/output maps.
`obj s` stands for a Python object that `json` cannot serialize natively and
that `default=str` therefore renders as the string `s` (its `str()`); such
objects really occur in this program (numpy arrays, `bytes`).  Dict keys are
strings, as in the program's input maps. -/
inductive Value where
  | null : Value
  | bool (b : Bool) : Value
  | int (n : Int) : Value
  | str (s : String) : Value
  | obj (s : String) : Value
  | list (vs : ValueList) : Value
  | dict (kvs : ValueDict) : Value
deriving DecidableEq

/-- A Python list of values. -/
inductive ValueList where
  | nil : ValueList
  | cons (v : Value) (vs : ValueList) : ValueList
deriving DecidableEq

/-- A Python dict with string keys, as an ordered association list
(insertion order, the order `dict` iteration uses). -/
inductive ValueDict where
  | nil : ValueDict
  | cons (k : String) (v : Value) (kvs : ValueDict) : ValueDict
deriving DecidableEq
end

/-- First binding of key `k`, like a Python dict lookup (keys are unique in
an actual Python dict). -/
def ValueDict.lookup : ValueDict → String → Option Value
  | .nil, _ => none
  | .cons k' v rest, k => if k' = k then some v else rest.lookup k

/-- `d.get(k)`: Python's `dict.get`, returning `None` for a missing key. -/
def ValueDict.get (d : ValueDict) (k : String) : Value :=
  match d.lookup k with
  | some v => v
  | none => .null

mutual
/-- `v` contains no non-JSON-serializable object (no `Value.obj`). -/
def noObj : Value → Bool
  | .null => true
  | .bool _ => true
  | .int _ => true
  | .str _ => true
  | .obj _ => false
  | .list vs => noObjL vs
  | .dict kvs => noObjD kvs

/-- `noObj` for each element of a list. -/
def noObjL : ValueList → Bool
  | .nil => true
  | .cons v vs => noObj v && noObjL vs

/-- `noObj` for each value of a dict. -/
def noObjD : ValueDict → Bool
  | .nil => true
  | .cons _ v kvs => noObj v && noObjD kvs
end

/-- Code-point lexicographic strict order on character lists: Python's
string `<`, used by `sorted(keys)` inside `json.dumps(..., sort_keys=True)`. -/
def listCharLt : List Char → List Char → Bool
  | _, [] => false
  | [], _ :: _ => true
  | a :: as, b :: bs => a.toNat < b.toNat || (a.toNat == b.toNat && listCharLt as bs)

/-- Python string `<`. -/
def strLt (a b : String) : Bool := listCharLt a.data b.data

/-- Insert a (key, value) entry into a key-sorted dict, keeping it sorted:
one step of sorting the keys the way `sort_keys=True` does. -/
def insertPair (k : String) (v : Value) : ValueDict → ValueDict
  | .nil => .cons k v .nil
  | .cons k' v' rest =>
      if strLt k' k then .cons k' v' (insertPair k v rest)
      else .cons k v (.cons k' v' rest)

mutual
/-- Recursively put every dict inside `v` into sorted-key order.  This is the
key-order normal form: `json.dumps(v, sort_keys=True)` serializes `v` exactly
as it serializes `sortDicts v`, and two values are "structurally equal up to
dict key ordering" precisely when their normal forms coincide. -/
def sortDicts : Value → Value
  | .null => .null
  | .bool b => .bool b
  | .int n => .int n
  | .str s => .str s
  | .obj s => .obj s
  | .list vs => .list (sortDictsL vs)
  | .dict kvs => .dict (sortDictsD kvs)

/-- `sortDicts` on each element of a list. -/
def sortDictsL : ValueList → ValueList
  | .nil => .nil
  | .cons v vs => .cons (sortDicts v) (sortDictsL vs)

/-- `sortDicts` on a dict: normalize every value, insertion-sort the entries
by key. -/
def sortDictsD : ValueDict → ValueDict
  | .nil => .nil
  | .cons k v kvs => insertPair k (sortDicts v) (sortDictsD kvs)
end

/-- "Structurally equal up to dict key ordering": the spec's notion of
structural equality of effect data (§7 "structural equality over the actual
data"), as equality of key-order normal forms. -/
def structEqVal (v w : Value) : Prop := sortDicts v = sortDicts w

/-- Python `==` between two engine values (used for `actual != expected` in
`_match_when`): structural equality with dict comparison independent of key
order. -/
def pyEq (v w : Value) : Bool := sortDicts v == sortDicts w

/-- Four lowercase hex digits, most significant first: `"%04x" % n` for
`n < 0x10000`. -/
def hex4 (n : Nat) : List Char :=
  [Nat.digitChar (n / 4096 % 16), Nat.digitChar (n / 256 % 16),
   Nat.digitChar (n / 16 % 16), Nat.digitChar (n % 16)]

/-- The two-character JSON escapes: `\"  \\  \b  \t  \n  \f  \r`.
Returns the character written after the backslash. -/
def shortEsc (c : Char) : Option Char :=
  if c = '"' then some '"'
  else if c = '\\' then some '\\'
  else if c.toNat = 8 then some 'b'
  else if c.toNat = 9 then some 't'
  else if c.toNat = 10 then some 'n'
  else if c.toNat = 12 then some 'f'
  else if c.toNat = 13 then some 'r'
  else none

/-- How `json.dumps` with `ensure_ascii=True` (the default) writes one
character of a string: a two-character escape for the special characters,
the character itself if printable ASCII, `\uXXXX` for any other basic-plane
character, and a surrogate pair `\uD8XX\uDCXX` for an astral character. -/
def escapeChar (c : Char) : List Char :=
  match shortEsc c with
  | some e => ['\\', e]
  | none =>
      if 0x20 ≤ c.toNat ∧ c.toNat ≤ 0x7e then [c]
      else if c.toNat < 0x10000 then '\\' :: 'u' :: hex4 c.toNat
      else
        '\\' :: 'u' :: hex4 (0xd800 + (c.toNat - 0x10000) / 0x400) ++
          '\\' :: 'u' :: hex4 (0xdc00 + (c.toNat - 0x10000) % 0x400)

/-- The escaped body of a JSON string literal. -/
def escBody (cs : List Char) : List Char := (cs.map escapeChar).flatten

/-- A JSON string literal: quote, escaped body, quote. -/
def escapeStr (s : String) : List Char := '"' :: escBody s.data ++ ['"']

/-- Decimal digits of a natural number, most significant first, as Python
prints it. -/
def decChars (n : Nat) : List Char :=
  if n = 0 then ['0'] else ((Nat.digits 10 n).reverse.map Nat.digitChar)

/-- An integer in Python's decimal notation. -/
def intChars : Int → List Char
  | .ofNat n => decChars n
  | .negSucc m => '-' :: decChars (m + 1)

mutual
/-- Serialization of a value whose dicts are already in the intended key
order — the output format of `json.dumps` with its default separators
`", "` and `": "`.  `obj s` is rendered through `default=str`: the string
`s` is serialized as a JSON string literal. -/
def serRaw : Value → List Char
  | .null => 'n' :: ['u', 'l', 'l']
  | .bool true => 't' :: ['r', 'u', 'e']
  | .bool false => 'f' :: ['a', 'l', 's', 'e']
  | .int n => intChars n
  | .str s => escapeStr s
  | .obj s => escapeStr s
  | .list vs => '[' :: (serList vs ++ [']'])
  | .dict kvs => '\x7b' :: (serDict kvs ++ ['\x7d'])

/-- Body of a serialized list: elements joined by `", "`. -/
def serList : ValueList → List Char
  | .nil => []
  | .cons v vs => serRaw v ++ serListRest vs

/-- The remaining elements of a serialized list, each preceded by `", "`. -/
def serListRest : ValueList → List Char
  | .nil => []
  | .cons v vs => ',' :: ' ' :: (serRaw v ++ serListRest vs)

/-- Body of a serialized dict: `"key": value` entries joined by `", "`. -/
def serDict : ValueDict → List Char
  | .nil => []
  | .cons k v kvs => escapeStr k ++ ':' :: ' ' :: (serRaw v ++ serDictRest kvs)

/-- The remaining entries of a serialized dict, each preceded by `", "`. -/
def serDictRest : ValueDict → List Char
  | .nil => []
  | .cons k v kvs => ',' :: ' ' :: (escapeStr k ++ ':' :: ' ' :: (serRaw v ++ serDictRest kvs))
end

/-- `json.dumps(v, sort_keys=True, default=str)`: every dict's entries are
put into sorted key order and the result is serialized. -/
def dumps (v : Value) : String := String.mk (serRaw (sortDicts v))

/-- The canonical key `(concept, action, json.dumps(params, sort_keys=True,
default=str))` computed on line 108 of `engine.py`. -/
def canonKey (c a : String) (params : ValueDict) : String × String × String :=
  (c, a, dumps (.dict params))

/-- One invocation's record (`ActionRecord` in `engine.py`): id, concept
name, action name, input map, output map (absent when the action returned
`None`), flow token, timestamp.  `id` and `t` are drawn from the engine
state's monotone counter, standing in for `uuid4()` and `time.time()`. -/
structure ActionRecord where
  id : Nat
  concept : String
  action : String
  input : ValueDict
  output : Option ValueDict
  flow : String
  t : Nat
deriving DecidableEq

/-- A rule's when-pattern: concept, action, input term map (a term is either
a literal to match or a `$`-sigil binding placeholder), and output-binding
map (output key → frame variable name). -/
structure WhenPattern where
  concept : String
  action : String
  inputs : ValueDict
  outputs : List (String × String)

/-- A frame (`Frame` in `engine.py`): one flow's snapshot of the log plus a
mutable variable environment.  `bind` overwrites, so the environment is an
association list read through its first match. -/
structure Frame where
  flow : String
  actions : List ActionRecord
  vars : List (String × Value)

/-- `Frame.bind`: Python dict assignment into `frame.vars`. -/
def Frame.bind (f : Frame) (v : String) (x : Value) : Frame :=
  { f with vars := (v, x) :: f.vars }

/-- Read a frame variable (`Frame.try_get`-style: `none` when unbound). -/
def Frame.getVar (f : Frame) (v : String) : Option Value :=
  (f.vars.find? (fun p => p.1 == v)).map (·.2)

/-- `Frame.last`: walk the snapshot from most recent to oldest and return
the first record whose concept and action both match. -/
def lastRec (actions : List ActionRecord) (c a : String) : Option ActionRecord :=
  actions.reverse.find? (fun r => r.concept == c && r.action == a)

/-- A synchronization rule (`Sync` in `engine.py`).  The optional guard
receives the frame and may bind further variables (in Python it also
receives the engine, which it may only query; queries are pure, so their
results are folded into the arbitrary function).  The effect producer
`thenFn` reads the frame and returns `(concept, action, params)` triples. -/
structure Sync where
  name : String
  whenPats : List WhenPattern
  whereFn : Option (Frame → Bool × Frame)
  thenFn : Frame → List (String × String × ValueDict)

/-- Provider dispatch for one concept: `Concept.perform`'s `getattr` lookup
plus the call.  `none` models a failing dispatch (`AttributeError` for an
unknown action name, or an exception raised from inside the action); `some
out` a normal return, with `out = none` when the Python action returned
`None` instead of a dict. -/
def ConceptImpl : Type := String → ValueDict → Option (Option ValueDict)

/-- The engine's registries, fixed at startup: the concept registry
(`self.concepts`, a name-keyed dict) and the rule list (`self.syncs`, in
registration order), plus the token of the flow under consideration. -/
structure Config where
  concepts : List (String × ConceptImpl)
  syncs : List Sync
  flow : String

/-- `self.concepts[name]` — `none` models the `KeyError` for an unknown
provider name. -/
def lookupConcept (cs : List (String × ConceptImpl)) (name : String) : Option ConceptImpl :=
  (cs.find? (fun p => p.1 == name)).map (·.2)

/-- The engine's per-flow mutable state: this flow's entry in
`self.flow_log` and in `self._emitted`, and the monotone counter behind
record ids and timestamps.  `ruleCalls` is a ghost trace: the canonical key
of every rule-triggered invocation (line 113 of `engine.py`), newest first;
nothing in the semantics reads it. -/
structure EngineState where
  log : List ActionRecord
  emitted : List (String × String × String)
  nextId : Nat
  ruleCalls : List (String × String × String)

/-- Outcome of an engine computation: normal completion, a propagating
Python exception (`err`), or fuel exhaustion of the modeled `while` loop
(`fuelOut`).  Each outcome carries the engine state at that point — a
Python exception unwinds the call stack but leaves the engine object as it
was at the moment of the raise. -/
inductive Res (α : Type) where
  | ok (st : EngineState) (a : α) : Res α
  | err (st : EngineState) : Res α
  | fuelOut (st : EngineState) : Res α

/-- The engine state an outcome carries. -/
def Res.state {α : Type} : Res α → EngineState
  | .ok st _ => st
  | .err st => st
  | .fuelOut st => st

/-- Did the modeled loop run out of fuel? -/
def Res.isFuelOut {α : Type} : Res α → Bool
  | .ok _ _ => false
  | .err _ => false
  | .fuelOut _ => true

/-- `s.startswith("$")`: does the string begin with the `$` sigil? -/
def startsWithSigil (s : String) : Bool :=
  match s.data with
  | [] => false
  | c :: _ => c == '$'

/-- Is an input term a binding placeholder?  `isinstance(expected, str) and
expected.startswith("$")` — if so, return the variable name `expected[1:]`. -/
def isBinder : Value → Option String
  | .str s => if startsWithSigil s then some (s.drop 1) else none
  | _ => none

/-- The input-term loop of `_match_when` (lines 121–127): for each declared
term, a binding placeholder binds the record's actual value (with `None`,
i.e. `Value.null`, for a key absent from the record's input) and a literal
must equal the actual value or the match fails, keeping the bindings made
so far. -/
def matchInputs : ValueDict → ValueDict → Frame → Bool × Frame
  | .nil, _, frame => (true, frame)
  | .cons k expected rest, inputMap, frame =>
      let actual := inputMap.get k
      match isBinder expected with
      | some v => matchInputs rest inputMap (frame.bind v actual)
      | none =>
          if pyEq actual expected then matchInputs rest inputMap frame
          else (false, frame)

/-- The output-binding loop of `_match_when` (lines 128–131): each declared
output key must be present in the record's output, and its value is bound
to the named variable; a missing key fails the match, keeping the bindings
made so far. -/
def matchOutputs : List (String × String) → ValueDict → Frame → Bool × Frame
  | [], _, frame => (true, frame)
  | (outKey, var) :: rest, out, frame =>
      match out.lookup outKey with
      | none => (false, frame)
      | some v => matchOutputs rest out (frame.bind var v)

/-- The pattern loop of `_match_when` (lines 116–132): each pattern needs a
most recent qualifying record with a set output, then its input terms and
output bindings are processed; the first failure stops the loop, returning
the frame as mutated so far. -/
def matchPats : List WhenPattern → Frame → Bool × Frame
  | [], frame => (true, frame)
  | pat :: rest, frame =>
      match lastRec frame.actions pat.concept pat.action with
      | none => (false, frame)
      | some r =>
          match r.output with
          | none => (false, frame)
          | some out =>
              match matchInputs pat.inputs r.input frame with
              | (false, frame1) => (false, frame1)
              | (true, frame1) =>
                  match matchOutputs pat.outputs out frame1 with
                  | (false, frame2) => (false, frame2)
                  | (true, frame2) => matchPats rest frame2

/-- `Engine._match_when`. -/
def matchWhen (sync : Sync) (frame : Frame) : Bool × Frame :=
  matchPats sync.whenPats frame

/-- `sync.where is None or sync.where(self, frame)`: a missing guard passes;
a present one runs on (and may further bind) the frame. -/
def applyWhere : Option (Frame → Bool × Frame) → Frame → Bool × Frame
  | none, frame => (true, frame)
  | some w, frame => w frame

/-- The dispatch-and-append step of `Engine.invoke` (lines 82–88), followed
by a continuation `k` standing for the `_evaluate_syncs` call: look the
concept up (`KeyError` if absent), dispatch the action (an exception aborts
with no record appended), otherwise construct the record, append it to the
flow's log, run `k`, and return the record. -/
def afterAppend (k : EngineState → Res Unit) (cfg : Config) (st : EngineState)
    (c a : String) (inp : ValueDict) : Res ActionRecord :=
  match lookupConcept cfg.concepts c with
  | none => .err st
  | some impl =>
      match impl a inp with
      | none => .err st
      | some out =>
          let r : ActionRecord :=
            { id := st.nextId, concept := c, action := a, input := inp,
              output := out, flow := cfg.flow, t := st.nextId }
          match k { st with log := st.log ++ [r], nextId := st.nextId + 1 } with
          | .ok st' _ => .ok st' r
          | .err st' => .err st'
          | .fuelOut st' => .fuelOut st'

/-- The effect loop of `_evaluate_syncs` (lines 106–114): for each produced
triple, compute the canonical key; skip it if it is already in the flow's
emitted-set, otherwise add it to the set and invoke it (through `invokeFn`,
the recursive `self.invoke(..., flow=flow)`), setting `made_progress`.  The
ghost `ruleCalls` records the key of each invocation actually made. -/
def runThen (invokeFn : EngineState → String → String → ValueDict → Res ActionRecord) :
    List (String × String × ValueDict) → EngineState → Bool → Res Bool
  | [], st, progress => .ok st progress
  | (c, a, params) :: rest, st, progress =>
      let key := canonKey c a params
      if key ∈ st.emitted then runThen invokeFn rest st progress
      else
        match invokeFn { st with emitted := key :: st.emitted, ruleCalls := key :: st.ruleCalls }
            c a params with
        | .ok st1 _ => runThen invokeFn rest st1 true
        | .err st1 => .err st1
        | .fuelOut st1 => .fuelOut st1

/-- One evaluation pass of `_evaluate_syncs` (lines 103–114): every sync, in
registration order, is matched and guarded against the *same* frame object,
whose bindings accumulate across syncs; a firing sync's produced triples run
through the effect loop.  Returns the `made_progress` flag. -/
def runPass (invokeFn : EngineState → String → String → ValueDict → Res ActionRecord) :
    List Sync → Frame → EngineState → Bool → Res Bool
  | [], _, st, progress => .ok st progress
  | sync :: rest, frame, st, progress =>
      match matchWhen sync frame with
      | (false, frame1) => runPass invokeFn rest frame1 st progress
      | (true, frame1) =>
          match applyWhere sync.whereFn frame1 with
          | (false, frame2) => runPass invokeFn rest frame2 st progress
          | (true, frame2) =>
              match runThen invokeFn (sync.thenFn frame2) st progress with
              | .ok st1 progress1 => runPass invokeFn rest frame2 st1 progress1
              | .err st1 => .err st1
              | .fuelOut st1 => .fuelOut st1

/-- `Engine._evaluate_syncs` (lines 94–114): repeat passes — each built on a
fresh frame holding a snapshot of the flow's log — until a pass makes no
progress.  One unit of fuel pays for one pass; the nested `self.invoke` of a
produced triple is the dispatch-and-append step followed by this evaluator
at the remaining fuel. -/
def evalSyncs : Nat → Config → EngineState → Res Unit
  | 0, _, st => .fuelOut st
  | fuel + 1, cfg, st =>
      let frame : Frame := { flow := cfg.flow, actions := st.log, vars := [] }
      match runPass (fun st' c a inp => afterAppend (evalSyncs fuel cfg) cfg st' c a inp)
          cfg.syncs frame st false with
      | .ok st1 progressed => if progressed then evalSyncs fuel cfg st1 else .ok st1 ()
      | .err st1 => .err st1
      | .fuelOut st1 => .fuelOut st1

/-- `Engine.invoke` for this flow: dispatch, append, then fixpoint
evaluation. -/
def invoke (fuel : Nat) (cfg : Config) (st : EngineState)
    (c a : String) (inp : ValueDict) : Res ActionRecord :=
  afterAppend (evalSyncs fuel cfg) cfg st c a inp

/-- Does a record match a (concept, action) pair, as tested by `Frame.last`? -/
def recMatches (r : ActionRecord) (c a : String) : Bool :=
  r.concept == c && r.action == a

/-- The state-evolution invariant every engine step preserves, relating a
state to any later state of the same flow: the emitted-set only grows; the
ghost trace grows by a batch of keys that are pairwise distinct, were not
yet emitted at the start, and are emitted at the end (each rule-triggered
invocation is guarded by — and immediately recorded in — the emitted-set);
the log only grows by appending; the id counter is monotone and stays above
every logged id. -/
def StepOK (st st' : EngineState) : Prop :=
  (∀ k, k ∈ st.emitted → k ∈ st'.emitted) ∧
  (∃ new, st'.ruleCalls = new ++ st.ruleCalls ∧ new.Nodup ∧
      ∀ k, k ∈ new → k ∉ st.emitted ∧ k ∈ st'.emitted) ∧
  (∃ tail, st'.log = st.log ++ tail) ∧
  st.nextId ≤ st'.nextId ∧
  ((∀ r, r ∈ st.log → r.id < st.nextId) → ∀ r, r ∈ st'.log → r.id < st'.nextId)

/-- How many keys of the finite key universe `K` are not yet in the flow's
emitted-set: the quantity a productive evaluation pass strictly decreases. -/
def remKeys (K : List (String × String × String)) (st : EngineState) : Nat :=
  (K.filter (fun k => decide (k ∉ st.emitted))).length

/-- A remainder that cannot be mistaken for more digits of a preceding
decimal number: empty, or starting with a non-digit.  Every remainder the
serializer places after a value (`", "`, `"]"`, `"... "`, or nothing) has
this shape. -/
def TailOK (r : List Char) : Prop :=
  ∀ c cs, r = c :: cs → c.isDigit = false

theorem stepOK_refl (st : EngineState) : StepOK st st :=
  ⟨fun _ hk => hk, ⟨[], by simp⟩, ⟨[], by simp⟩, le_refl _, fun h => h⟩

theorem stepOK_trans {s1 s2 s3 : EngineState} (h12 : StepOK s1 s2) (h23 : StepOK s2 s3) :
    StepOK s1 s3 := by
  obtain ⟨e12, ⟨n12, hr12, hnd12, hk12⟩, ⟨t12, hl12⟩, hi12, hid12⟩ := h12
  obtain ⟨e23, ⟨n23, hr23, hnd23, hk23⟩, ⟨t23, hl23⟩, hi23, hid23⟩ := h23
  refine ⟨fun k hk => e23 k (e12 k hk),
    ⟨n23 ++ n12, by rw [hr23, hr12, List.append_assoc], ?_, ?_⟩,
    ⟨t12 ++ t23, by rw [hl23, hl12, List.append_assoc]⟩,
    le_trans hi12 hi23, fun h => hid23 (hid12 h)⟩
  · refine List.Nodup.append hnd23 hnd12 ?_
    intro k hkn23 hkn12
    exact (hk23 k hkn23).1 ((hk12 k hkn12).2)
  · intro k hk
    rcases List.mem_append.mp hk with h | h
    · exact ⟨fun hm => (hk23 k h).1 (e12 k hm), (hk23 k h).2⟩
    · exact ⟨(hk12 k h).1, e23 k (hk12 k h).2⟩

theorem stepOK_append (st : EngineState) (r : ActionRecord) (hid : r.id = st.nextId) :
    StepOK st { st with log := st.log ++ [r], nextId := st.nextId + 1 } := by
  refine ⟨fun _ hk => hk, ⟨[], by simp⟩, ⟨[r], by simp⟩, Nat.le_succ _, ?_⟩
  intro h r' hr'
  rcases List.mem_append.mp hr' with h' | h'
  · exact Nat.lt_succ_of_lt (h r' h')
  · simp only [List.mem_singleton] at h'
    rw [h', hid]
    exact Nat.lt_succ_self _

theorem stepOK_emit (st : EngineState) (key : String × String × String)
    (hmem : key ∉ st.emitted) :
    StepOK st { st with emitted := key :: st.emitted, ruleCalls := key :: st.ruleCalls } := by
  refine ⟨fun k hk => List.mem_cons_of_mem _ hk,
    ⟨[key], by simp, List.nodup_singleton key, ?_⟩, ⟨[], by simp⟩, le_refl _, fun h => h⟩
  intro k hk
  simp only [List.mem_singleton] at hk
  subst hk
  exact ⟨hmem, List.mem_cons_self _ _⟩

theorem stepOK_runThen
    (invokeFn : EngineState → String → String → ValueDict → Res ActionRecord)
    (hInv : ∀ st c a inp, StepOK st ((invokeFn st c a inp).state)) :
    ∀ (triples : List (String × String × ValueDict)) (st : EngineState) (progress : Bool),
      StepOK st ((runThen invokeFn triples st progress).state) := by
  intro triples
  induction triples with
  | nil => intro st progress; exact stepOK_refl st
  | cons t rest ih =>
      intro st progress
      obtain ⟨c, a, params⟩ := t
      by_cases hmem : canonKey c a params ∈ st.emitted
      · simpa [runThen, hmem] using ih st progress
      · have h01 : StepOK st { st with emitted := canonKey c a params :: st.emitted, ruleCalls := canonKey c a params :: st.ruleCalls } := stepOK_emit st _ hmem
        have h12 := hInv { st with emitted := canonKey c a params :: st.emitted, ruleCalls := canonKey c a params :: st.ruleCalls } c a params
        cases hres : invokeFn { st with emitted := canonKey c a params :: st.emitted, ruleCalls := canonKey c a params :: st.ruleCalls } c a params with
        | ok st2 x =>
            rw [hres] at h12
            simpa [runThen, hmem, hres] using
              stepOK_trans h01 (stepOK_trans h12 (ih st2 true))
        | err st2 =>
            rw [hres] at h12
            simpa [runThen, hmem, hres] using stepOK_trans h01 h12
        | fuelOut st2 =>
            rw [hres] at h12
            simpa [runThen, hmem, hres] using stepOK_trans h01 h12

theorem stepOK_runPass
    (invokeFn : EngineState → String → String → ValueDict → Res ActionRecord)
    (hInv : ∀ st c a inp, StepOK st ((invokeFn st c a inp).state)) :
    ∀ (syncs : List Sync) (frame : Frame) (st : EngineState) (progress : Bool),
      StepOK st ((runPass invokeFn syncs frame st progress).state) := by
  intro syncs
  induction syncs with
  | nil => intro frame st progress; exact stepOK_refl st
  | cons sync rest ih =>
      intro frame st progress
      cases hm : matchWhen sync frame with
      | mk m frame1 =>
          cases m with
          | false => simpa [runPass, hm] using ih frame1 st progress
          | true =>
              cases hw : applyWhere sync.whereFn frame1 with
              | mk g frame2 =>
                  cases g with
                  | false => simpa [runPass, hm, hw] using ih frame2 st progress
                  | true =>
                      have hrt := stepOK_runThen invokeFn hInv (sync.thenFn frame2) st progress
                      cases hres : runThen invokeFn (sync.thenFn frame2) st progress with
                      | ok st1 p1 =>
                          rw [hres] at hrt
                          simpa [runPass, hm, hw, hres] using
                            stepOK_trans hrt (ih frame2 st1 p1)
                      | err st1 =>
                          rw [hres] at hrt
                          simpa [runPass, hm, hw, hres] using hrt
                      | fuelOut st1 =>
                          rw [hres] at hrt
                          simpa [runPass, hm, hw, hres] using hrt

theorem stepOK_afterAppend (k : EngineState → Res Unit)
    (hk : ∀ st, StepOK st ((k st).state)) (cfg : Config) (st : EngineState)
    (c a : String) (inp : ValueDict) :
    StepOK st ((afterAppend k cfg st c a inp).state) := by
  cases hc : lookupConcept cfg.concepts c with
  | none => simpa [afterAppend, hc] using stepOK_refl st
  | some impl =>
      cases ho : impl a inp with
      | none => simpa [afterAppend, hc, ho] using stepOK_refl st
      | some out =>
          have h01 : StepOK st { st with log := st.log ++ [{ id := st.nextId, concept := c, action := a, input := inp, output := out, flow := cfg.flow, t := st.nextId }], nextId := st.nextId + 1 } := stepOK_append st _ rfl
          have h12 := hk { st with log := st.log ++ [{ id := st.nextId, concept := c, action := a, input := inp, output := out, flow := cfg.flow, t := st.nextId }], nextId := st.nextId + 1 }
          cases hres : k { st with log := st.log ++ [{ id := st.nextId, concept := c, action := a, input := inp, output := out, flow := cfg.flow, t := st.nextId }], nextId := st.nextId + 1 } with
          | ok st' x =>
              rw [hres] at h12
              simpa [afterAppend, hc, ho, hres] using stepOK_trans h01 h12
          | err st' =>
              rw [hres] at h12
              simpa [afterAppend, hc, ho, hres] using stepOK_trans h01 h12
          | fuelOut st' =>
              rw [hres] at h12
              simpa [afterAppend, hc, ho, hres] using stepOK_trans h01 h12

theorem stepOK_evalSyncs : ∀ (fuel : Nat) (cfg : Config) (st : EngineState),
    StepOK st ((evalSyncs fuel cfg st).state) := by
  intro fuel
  induction fuel with
  | zero => intro cfg st; exact stepOK_refl st
  | succ fuel ih =>
      intro cfg st
      have hInv : ∀ st' c a inp, StepOK st'
          (((fun st' c a inp => afterAppend (evalSyncs fuel cfg) cfg st' c a inp)
            st' c a inp).state) :=
        fun st' c a inp => stepOK_afterAppend _ (fun s => ih cfg s) cfg st' c a inp
      have hpass := stepOK_runPass _ hInv cfg.syncs
        { flow := cfg.flow, actions := st.log, vars := [] } st false
      cases hres : runPass (fun st' c a inp => afterAppend (evalSyncs fuel cfg) cfg st' c a inp)
          cfg.syncs { flow := cfg.flow, actions := st.log, vars := [] } st false with
      | ok st1 progressed =>
          rw [hres] at hpass
          cases progressed with
          | false => simpa [evalSyncs, hres] using hpass
          | true =>
              simpa [evalSyncs, hres] using stepOK_trans hpass (ih cfg st1)
      | err st1 =>
          rw [hres] at hpass
          simpa [evalSyncs, hres] using hpass
      | fuelOut st1 =>
          rw [hres] at hpass
          simpa [evalSyncs, hres] using hpass

theorem stepOK_invoke (fuel : Nat) (cfg : Config) (st : EngineState)
    (c a : String) (inp : ValueDict) :
    StepOK st ((invoke fuel cfg st c a inp).state) :=
  stepOK_afterAppend _ (fun s => stepOK_evalSyncs fuel cfg s) cfg st c a inp

theorem remKeys_mono (K : List (String × String × String)) {st st' : EngineState}
    (h : ∀ k, k ∈ st.emitted → k ∈ st'.emitted) : remKeys K st' ≤ remKeys K st := by
  refine List.Sublist.length_le (List.monotone_filter_right K ?_)
  intro k hk
  simp only [decide_eq_true_eq] at hk ⊢
  exact fun hm => hk (h k hm)

theorem remKeys_strict (K : List (String × String × String)) {st st' : EngineState}
    (h : ∀ k, k ∈ st.emitted → k ∈ st'.emitted) {key : String × String × String}
    (hK : key ∈ K) (h1 : key ∉ st.emitted) (h2 : key ∈ st'.emitted) :
    remKeys K st' < remKeys K st := by
  have hsub : List.Sublist (K.filter (fun k => decide (k ∉ st'.emitted)))
      (K.filter (fun k => decide (k ∉ st.emitted))) := by
    refine List.monotone_filter_right K ?_
    intro k hk
    simp only [decide_eq_true_eq] at hk ⊢
    exact fun hm => hk (h k hm)
  rcases Nat.lt_or_ge (remKeys K st') (remKeys K st) with hlt | hge
  · exact hlt
  · exfalso
    have hlen : (K.filter (fun k => decide (k ∉ st'.emitted))).length =
        (K.filter (fun k => decide (k ∉ st.emitted))).length :=
      Nat.le_antisymm (List.Sublist.length_le hsub) hge
    have heq := hsub.eq_of_length hlen
    have hmem1 : key ∈ K.filter (fun k => decide (k ∉ st.emitted)) := by
      simp only [List.mem_filter, decide_eq_true_eq]
      exact ⟨hK, h1⟩
    rw [← heq] at hmem1
    simp only [List.mem_filter, decide_eq_true_eq] at hmem1
    exact hmem1.2 h2

theorem term_runThen
    (invokeFn : EngineState → String → String → ValueDict → Res ActionRecord)
    (K : List (String × String × String)) (F : Nat)
    (hInv : ∀ st c a inp, StepOK st ((invokeFn st c a inp).state))
    (hF : ∀ st c a inp, remKeys K st + 1 ≤ F → (invokeFn st c a inp).isFuelOut = false) :
    ∀ (triples : List (String × String × ValueDict)) (st : EngineState) (progress : Bool),
      (∀ t, t ∈ triples → canonKey t.1 t.2.1 t.2.2 ∈ K) → remKeys K st ≤ F →
      (runThen invokeFn triples st progress).isFuelOut = false ∧
      (∀ st' p', runThen invokeFn triples st progress = .ok st' p' →
        p' = progress ∨ remKeys K st' < remKeys K st) := by
  intro triples
  induction triples with
  | nil =>
      intro st progress _ _
      refine ⟨rfl, ?_⟩
      intro st' p' h
      simp only [runThen, Res.ok.injEq] at h
      exact Or.inl h.2.symm
  | cons t rest ih =>
      intro st progress hK hrem
      obtain ⟨c, a, params⟩ := t
      have hKrest : ∀ t, t ∈ rest → canonKey t.1 t.2.1 t.2.2 ∈ K :=
        fun t ht => hK t (List.mem_cons_of_mem _ ht)
      by_cases hmem : canonKey c a params ∈ st.emitted
      · have := ih st progress hKrest hrem
        constructor
        · simpa [runThen, hmem] using this.1
        · intro st' p' h
          simp only [runThen, hmem, if_pos] at h
          exact this.2 st' p' h
      · have hkeyK : canonKey c a params ∈ K := hK (c, a, params) (List.mem_cons_self _ _)
        have hst1 : StepOK st { st with emitted := canonKey c a params :: st.emitted, ruleCalls := canonKey c a params :: st.ruleCalls } := stepOK_emit st _ hmem
        have hrem1 : remKeys K { st with emitted := canonKey c a params :: st.emitted, ruleCalls := canonKey c a params :: st.ruleCalls } < remKeys K st := by
          refine remKeys_strict K hst1.1 hkeyK hmem ?_
          exact List.mem_cons_self _ _
        have hFok := hF { st with emitted := canonKey c a params :: st.emitted, ruleCalls := canonKey c a params :: st.ruleCalls } c a params (by omega)
        have hInv1 := hInv { st with emitted := canonKey c a params :: st.emitted, ruleCalls := canonKey c a params :: st.ruleCalls } c a params
        cases hres : invokeFn { st with emitted := canonKey c a params :: st.emitted, ruleCalls := canonKey c a params :: st.ruleCalls } c a params with
        | ok st2 x =>
            rw [hres] at hInv1
            have hrem2 : remKeys K st2 < remKeys K st :=
              lt_of_le_of_lt (remKeys_mono K hInv1.1) hrem1
            have := ih st2 true hKrest (le_of_lt (lt_of_lt_of_le hrem2 hrem))
            constructor
            · simpa [runThen, hmem, hres] using this.1
            · intro st' p' h
              simp only [runThen, hmem, if_neg, ite_false, hres] at h
              have hmono : remKeys K st' ≤ remKeys K st2 := by
                have hst := stepOK_runThen invokeFn hInv rest st2 true
                rw [h] at hst
                exact remKeys_mono K hst.1
              exact Or.inr (lt_of_le_of_lt hmono hrem2)
        | err st2 =>
            rw [hres] at hFok
            constructor
            · simpa [runThen, hmem, hres] using hFok
            · intro st' p' h
              simp only [runThen, hmem, if_neg, ite_false, hres] at h
              exact Res.noConfusion h
        | fuelOut st2 =>
            rw [hres] at hFok
            simp [Res.isFuelOut] at hFok

theorem term_runPass
    (invokeFn : EngineState → String → String → ValueDict → Res ActionRecord)
    (K : List (String × String × String)) (F : Nat)
    (hInv : ∀ st c a inp, StepOK st ((invokeFn st c a inp).state))
    (hF : ∀ st c a inp, remKeys K st + 1 ≤ F → (invokeFn st c a inp).isFuelOut = false) :
    ∀ (syncs : List Sync) (frame : Frame) (st : EngineState) (progress : Bool),
      (∀ s, s ∈ syncs → ∀ fr t, t ∈ s.thenFn fr → canonKey t.1 t.2.1 t.2.2 ∈ K) →
      remKeys K st ≤ F →
      (runPass invokeFn syncs frame st progress).isFuelOut = false ∧
      (∀ st' p', runPass invokeFn syncs frame st progress = .ok st' p' →
        p' = progress ∨ remKeys K st' < remKeys K st) := by
  intro syncs
  induction syncs with
  | nil =>
      intro frame st progress _ _
      refine ⟨rfl, ?_⟩
      intro st' p' h
      simp only [runPass, Res.ok.injEq] at h
      exact Or.inl h.2.symm
  | cons sync rest ih =>
      intro frame st progress hK hrem
      have hKrest : ∀ s, s ∈ rest → ∀ fr t, t ∈ s.thenFn fr → canonKey t.1 t.2.1 t.2.2 ∈ K :=
        fun s hs => hK s (List.mem_cons_of_mem _ hs)
      cases hm : matchWhen sync frame with
      | mk m frame1 =>
          cases m with
          | false =>
              have := ih frame1 st progress hKrest hrem
              exact ⟨by simpa [runPass, hm] using this.1, fun st' p' h => this.2 st' p'
                (by simpa [runPass, hm] using h)⟩
          | true =>
              cases hw : applyWhere sync.whereFn frame1 with
              | mk g frame2 =>
                  cases g with
                  | false =>
                      have := ih frame2 st progress hKrest hrem
                      exact ⟨by simpa [runPass, hm, hw] using this.1, fun st' p' h => this.2 st' p'
                        (by simpa [runPass, hm, hw] using h)⟩
                  | true =>
                      have hKthen : ∀ t, t ∈ sync.thenFn frame2 → canonKey t.1 t.2.1 t.2.2 ∈ K :=
                        hK sync (List.mem_cons_self _ _) frame2
                      have hthen := term_runThen invokeFn K F hInv hF (sync.thenFn frame2) st progress hKthen hrem
                      cases hres : runThen invokeFn (sync.thenFn frame2) st progress with
                      | ok st1 p1 =>
                          have hstep := stepOK_runThen invokeFn hInv (sync.thenFn frame2) st progress
                          rw [hres] at hstep
                          have hrem1 : remKeys K st1 ≤ remKeys K st := remKeys_mono K hstep.1
                          have := ih frame2 st1 p1 hKrest (le_trans hrem1 hrem)
                          constructor
                          · simpa [runPass, hm, hw, hres] using this.1
                          · intro st' p' h
                            simp only [runPass, hm, hw, hres] at h
                            rcases this.2 st' p' h with h' | h'
                            · subst h'
                              rcases hthen.2 st1 p' hres with h'' | h''
                              · exact Or.inl h''
                              · have hst := stepOK_runPass invokeFn hInv rest frame2 st1 p'
                                rw [h] at hst
                                exact Or.inr (lt_of_le_of_lt (remKeys_mono K hst.1) h'')
                            · exact Or.inr (lt_of_lt_of_le h' hrem1)
                      | err st1 =>
                          constructor
                          · simp [runPass, hm, hw, hres, Res.isFuelOut]
                          · intro st' p' h
                            simp only [runPass, hm, hw, hres] at h
                            exact Res.noConfusion h
                      | fuelOut st1 =>
                          rw [hres] at hthen
                          simp [Res.isFuelOut] at hthen

theorem term_evalSyncs (cfg : Config) (K : List (String × String × String))
    (hSyncs : ∀ s, s ∈ cfg.syncs → ∀ fr t, t ∈ s.thenFn fr → canonKey t.1 t.2.1 t.2.2 ∈ K) :
    ∀ (fuel : Nat) (st : EngineState), remKeys K st + 1 ≤ fuel →
      (evalSyncs fuel cfg st).isFuelOut = false := by
  intro fuel
  induction fuel with
  | zero => intro st h; omega
  | succ fuel ih =>
      intro st hrem
      have hInv : ∀ st' c a inp, StepOK st'
          (((fun st' c a inp => afterAppend (evalSyncs fuel cfg) cfg st' c a inp) st' c a inp).state) :=
        fun st' c a inp => stepOK_afterAppend _ (fun s => stepOK_evalSyncs fuel cfg s) cfg st' c a inp
      have hF : ∀ st' c a inp, remKeys K st' + 1 ≤ fuel →
          ((fun st' c a inp => afterAppend (evalSyncs fuel cfg) cfg st' c a inp) st' c a inp).isFuelOut = false := by
        intro st' c a inp hrem'
        cases hc : lookupConcept cfg.concepts c with
        | none => simp [afterAppend, hc, Res.isFuelOut]
        | some impl =>
            cases ho : impl a inp with
            | none => simp [afterAppend, hc, ho, Res.isFuelOut]
            | some out =>
                have heval := ih { st' with log := st'.log ++ [{ id := st'.nextId, concept := c, action := a, input := inp, output := out, flow := cfg.flow, t := st'.nextId }], nextId := st'.nextId + 1 } (by simpa [remKeys] using hrem')
                cases hres : evalSyncs fuel cfg { st' with log := st'.log ++ [{ id := st'.nextId, concept := c, action := a, input := inp, output := out, flow := cfg.flow, t := st'.nextId }], nextId := st'.nextId + 1 } with
                | ok st2 x => simp [afterAppend, hc, ho, hres, Res.isFuelOut]
                | err st2 => simp [afterAppend, hc, ho, hres, Res.isFuelOut]
                | fuelOut st2 => rw [hres] at heval; simp [Res.isFuelOut] at heval
      have hpass := term_runPass _ K fuel hInv hF cfg.syncs
        { flow := cfg.flow, actions := st.log, vars := [] } st false hSyncs (by omega)
      cases hres : runPass (fun st' c a inp => afterAppend (evalSyncs fuel cfg) cfg st' c a inp)
          cfg.syncs { flow := cfg.flow, actions := st.log, vars := [] } st false with
      | ok st1 progressed =>
          cases progressed with
          | false => simp [evalSyncs, hres, Res.isFuelOut]
          | true =>
              rcases hpass.2 st1 true hres with h | h
              · exact absurd h (by simp)
              · have := ih st1 (by omega)
                simpa [evalSyncs, hres] using this
      | err st1 => simp [evalSyncs, hres, Res.isFuelOut]
      | fuelOut st1 => rw [hres] at hpass; simp [Res.isFuelOut] at hpass

theorem length_le_one_of_nodup_of_all_eq {α : Type} {l : List α} {k : α}
    (hnd : l.Nodup) (hall : ∀ x, x ∈ l → x = k) : l.length ≤ 1 := by
  cases l with
  | nil => simp
  | cons a t =>
      cases t with
      | nil => simp
      | cons b t2 =>
          exfalso
          have ha := hall a (by simp)
          have hb := hall b (by simp)
          rw [List.nodup_cons] at hnd
          exact hnd.1 (by rw [ha, hb]; simp)

/-- C1: For every flow and every canonical (provider, operation, input)
effect triple, the fixpoint evaluator invokes that effect at most once per
flow.  First conjunct: when a rule's effect produces a triple whose
canonical key is already in the flow's emitted-set, the invocation is
skipped — the effect loop continues exactly as if the triple were absent.
Second conjunct: starting the evaluation with an empty ghost invocation
trace, every canonical key `k` occurs at most once in the trace of
rule-triggered invocations, however much fuel the evaluation is given —
so re-triggering the same condition any number of times within one flow
invokes the effect at most that one recorded time. -/
theorem c1_effect_fires_at_most_once_per_key (cfg : Config) (fuel : Nat)
    (st : EngineState) (h0 : st.ruleCalls = []) :
    (∀ invokeFn c a params rest st' progress, canonKey c a params ∈ st'.emitted →
        runThen invokeFn ((c, a, params) :: rest) st' progress =
          runThen invokeFn rest st' progress) ∧
    (∀ k, ((evalSyncs fuel cfg st).state.ruleCalls.filter
        (fun x => decide (x = k))).length ≤ 1) := by
  constructor
  · intro invokeFn c a params rest st' progress hmem
    simp [runThen, hmem]
  · intro k
    obtain ⟨-, ⟨new, hnew, hnd, -⟩, -, -, -⟩ := stepOK_evalSyncs fuel cfg st
    rw [hnew, h0, List.append_nil]
    refine length_le_one_of_nodup_of_all_eq (k := k) (List.Nodup.filter _ hnd) ?_
    intro x hx
    exact of_decide_eq_true (List.mem_filter.mp hx).2

/-- C1 witness: a rule with no when-patterns fires on the first pass of a
concrete run and its single effect is invoked exactly once — the recorded
trace contains its key once, and the initial-trace hypothesis holds by
evaluation. -/
theorem c1_effect_fires_at_most_once_per_key_witness :
    ({ log := [], emitted := [], nextId := 0, ruleCalls := [] } : EngineState).ruleCalls = [] ∧
    ((evalSyncs 3
        { concepts := [("A", fun a _ => if a = "a" then some (some .nil) else none)],
          syncs := [{ name := "S", whenPats := [], whereFn := none, thenFn := fun _ => [("A", "a", .nil)] }],
          flow := "f" }
        { log := [], emitted := [], nextId := 0, ruleCalls := [] }).state.ruleCalls.filter
      (fun x => decide (x = ("A", "a", "\x7b\x7d")))).length ≤ 1 :=
  ⟨rfl, (c1_effect_fires_at_most_once_per_key _ 3 _ rfl).2 _⟩

/-- C2: For every flow and every registered rule set whose effect producers
only ever emit triples whose canonical keys lie in a finite list `K`, the
fixpoint evaluation started after an append terminates: with fuel for
`K.length + 1` evaluation passes it never runs out — each productive pass
moves at least one key of `K` into the emitted-set and a pass that invokes
nothing ends the loop — so evaluation halts within as many productive
passes as there are distinct canonical keys. -/
theorem c2_fixpoint_terminates (cfg : Config) (K : List (String × String × String))
    (fuel : Nat) (st : EngineState)
    (hSyncs : ∀ s, s ∈ cfg.syncs → ∀ fr t, t ∈ s.thenFn fr → canonKey t.1 t.2.1 t.2.2 ∈ K)
    (hfuel : K.length + 1 ≤ fuel) :
    (evalSyncs fuel cfg st).isFuelOut = false := by
  refine term_evalSyncs cfg K hSyncs fuel st ?_
  have h := List.length_filter_le (fun k => decide (k ∉ st.emitted)) K
  simp only [remKeys]
  omega

/-- C2 witness: two mutually-triggering rules (each fires whenever the
other's effect has run, since neither has a when-pattern) draw their
effects from two canonical keys; with fuel `2 + 1 = 3` the evaluation
completes instead of running out of fuel. -/
theorem c2_fixpoint_terminates_witness :
    (∀ s, s ∈ ([{ name := "S1", whenPats := [], whereFn := none, thenFn := fun _ => [("A", "a", ValueDict.nil)] }, { name := "S2", whenPats := [], whereFn := none, thenFn := fun _ => [("A", "b", ValueDict.nil)] }] : List Sync) →
        ∀ fr t, t ∈ s.thenFn fr →
          canonKey t.1 t.2.1 t.2.2 ∈ [("A", "a", "\x7b\x7d"), ("A", "b", "\x7b\x7d")]) ∧
    (evalSyncs 3
      { concepts := [("A", fun _ _ => some (some .nil))],
        syncs := [{ name := "S1", whenPats := [], whereFn := none, thenFn := fun _ => [("A", "a", ValueDict.nil)] }, { name := "S2", whenPats := [], whereFn := none, thenFn := fun _ => [("A", "b", ValueDict.nil)] }],
        flow := "f" }
      { log := [], emitted := [], nextId := 0, ruleCalls := [] }).isFuelOut = false := by
  have hS : ∀ s, s ∈ ([{ name := "S1", whenPats := [], whereFn := none, thenFn := fun _ => [("A", "a", ValueDict.nil)] }, { name := "S2", whenPats := [], whereFn := none, thenFn := fun _ => [("A", "b", ValueDict.nil)] }] : List Sync) →
        ∀ fr t, t ∈ s.thenFn fr →
          canonKey t.1 t.2.1 t.2.2 ∈ [("A", "a", "\x7b\x7d"), ("A", "b", "\x7b\x7d")] := by
    intro s hs fr t ht
    rcases List.mem_cons.mp hs with h | h
    · subst h
      simp only [List.mem_singleton] at ht
      subst ht
      decide
    · simp only [List.mem_singleton] at h
      subst h
      simp only [List.mem_singleton] at ht
      subst ht
      decide
  exact ⟨hS, c2_fixpoint_terminates _ [("A", "a", "\x7b\x7d"), ("A", "b", "\x7b\x7d")] 3 _ hS (by simp)⟩

theorem matchInputs_actions : ∀ (pat inp : ValueDict) (frame : Frame),
    ((matchInputs pat inp frame).2).actions = frame.actions
  | .nil, _, _ => rfl
  | .cons k expected rest, inp, frame => by
      simp only [matchInputs]
      cases isBinder expected with
      | some v => exact matchInputs_actions rest inp (frame.bind v (inp.get k))
      | none =>
          by_cases hp : pyEq (inp.get k) expected
          · simpa [hp] using matchInputs_actions rest inp frame
          · simp [hp]

theorem matchOutputs_actions : ∀ (outs : List (String × String)) (out : ValueDict)
    (frame : Frame), ((matchOutputs outs out frame).2).actions = frame.actions
  | [], _, _ => rfl
  | (okKey, var) :: rest, out, frame => by
      simp only [matchOutputs]
      cases out.lookup okKey with
      | none => rfl
      | some v => exact matchOutputs_actions rest out (frame.bind var v)

theorem matchPats_false_of_bad : ∀ (pats : List WhenPattern) (frame : Frame),
    (∃ pat, pat ∈ pats ∧
      (lastRec frame.actions pat.concept pat.action = none ∨
       ∃ r, lastRec frame.actions pat.concept pat.action = some r ∧ r.output = none)) →
    (matchPats pats frame).1 = false := by
  intro pats
  induction pats with
  | nil =>
      intro frame h
      obtain ⟨pat, hmem, -⟩ := h
      exact absurd hmem (List.not_mem_nil pat)
  | cons pat' rest ih =>
      intro frame h
      cases hl : lastRec frame.actions pat'.concept pat'.action with
      | none => simp [matchPats, hl]
      | some r =>
          cases hro : r.output with
          | none => simp [matchPats, hl, hro]
          | some out =>
              obtain ⟨pat, hmem, hbad⟩ := h
              have hpat_ne : pat ≠ pat' := by
                intro he
                subst he
                rcases hbad with h1 | ⟨r', h1, h2⟩
                · rw [hl] at h1; exact Option.noConfusion h1
                · rw [hl] at h1
                  rw [Option.some.injEq] at h1
                  subst h1
                  rw [hro] at h2
                  exact Option.noConfusion h2
              have hmem' : pat ∈ rest := by
                rcases List.mem_cons.mp hmem with h1 | h1
                · exact absurd h1 hpat_ne
                · exact h1
              cases hmi : matchInputs pat'.inputs r.input frame with
              | mk mi frame1 =>
                  cases mi with
                  | false => simp [matchPats, hl, hro, hmi]
                  | true =>
                      cases hmo : matchOutputs pat'.outputs out frame1 with
                      | mk mo frame2 =>
                          cases mo with
                          | false => simp [matchPats, hl, hro, hmi, hmo]
                          | true =>
                              have hact1 : frame1.actions = frame.actions := by
                                have := matchInputs_actions pat'.inputs r.input frame
                                rw [hmi] at this
                                exact this
                              have hact2 : frame2.actions = frame.actions := by
                                have := matchOutputs_actions pat'.outputs out frame1
                                rw [hmo] at this
                                rw [this, hact1]
                              have := ih frame2 ⟨pat, hmem', by rw [hact2]; exact hbad⟩
                              simpa [matchPats, hl, hro, hmi, hmo] using this

/-- C4: Pattern matching resolves each when-pattern against the most recent
record in the frame's snapshot for the pattern's (provider, operation).
First two conjuncts characterize "most recent": appending a qualifying
record makes it the match result, displacing every older record, while
appending a non-qualifying record changes nothing.  Third conjunct: if some
pattern of a rule has no qualifying record at all, or its most recent
qualifying record has an unset output, the rule does not fire. -/
theorem c4_match_uses_most_recent_record :
    (∀ (acts : List ActionRecord) (r : ActionRecord) (c a : String),
        recMatches r c a = true → lastRec (acts ++ [r]) c a = some r) ∧
    (∀ (acts : List ActionRecord) (r : ActionRecord) (c a : String),
        recMatches r c a = false → lastRec (acts ++ [r]) c a = lastRec acts c a) ∧
    (∀ (sync : Sync) (frame : Frame) (pat : WhenPattern), pat ∈ sync.whenPats →
        (lastRec frame.actions pat.concept pat.action = none ∨
         ∃ r, lastRec frame.actions pat.concept pat.action = some r ∧ r.output = none) →
        (matchWhen sync frame).1 = false) := by
  refine ⟨?_, ?_, ?_⟩
  · intro acts r c a h
    simp only [lastRec, List.reverse_append, List.reverse_singleton, List.singleton_append,
      List.find?]
    rw [show (r.concept == c && r.action == a) = true from h]
  · intro acts r c a h
    simp only [lastRec, List.reverse_append, List.reverse_singleton, List.singleton_append,
      List.find?]
    rw [show (r.concept == c && r.action == a) = false from h]
  · intro sync frame pat hmem hbad
    exact matchPats_false_of_bad sync.whenPats frame ⟨pat, hmem, hbad⟩

/-- C4 witness: with two records for the same (provider, operation) in the
log, the appended (newer) one is the match; and a rule whose pattern finds
no record does not fire. -/
theorem c4_match_uses_most_recent_record_witness :
    recMatches { id := 1, concept := "P", action := "op", input := .nil, output := some .nil, flow := "f", t := 1 } "P" "op" = true ∧
    lastRec ([{ id := 0, concept := "P", action := "op", input := .nil, output := some .nil, flow := "f", t := 0 }] ++ [{ id := 1, concept := "P", action := "op", input := .nil, output := some .nil, flow := "f", t := 1 }]) "P" "op" = some { id := 1, concept := "P", action := "op", input := .nil, output := some .nil, flow := "f", t := 1 } ∧
    (matchWhen { name := "S", whenPats := [{ concept := "P", action := "op", inputs := .nil, outputs := [] }], whereFn := none, thenFn := fun _ => [] } { flow := "f", actions := [], vars := [] }).1 = false := by
  refine ⟨rfl, ?_, ?_⟩
  · exact (c4_match_uses_most_recent_record.1 _ _ "P" "op") rfl
  · refine (c4_match_uses_most_recent_record.2.2 _ _ { concept := "P", action := "op", inputs := .nil, outputs := [] } (by simp) ?_)
    left
    rfl

/-- C5: For a when-pattern input term matched against the most recent
qualifying record: a binding placeholder — a string beginning with the `$`
sigil — binds the named frame variable to the record's actual input value
unconditionally, whatever that value is, and the pattern matches; a literal
term makes the rule fire exactly when the actual value equals the term, and
a failing comparison leaves the frame unchanged. -/
theorem c5_sigil_binds_literal_compares (sync : Sync) (frame : Frame)
    (pc pa k : String) (expected : Value) (r : ActionRecord) (out : ValueDict)
    (hpats : sync.whenPats = [{ concept := pc, action := pa, inputs := .cons k expected .nil, outputs := [] }])
    (hlast : lastRec frame.actions pc pa = some r)
    (hout : r.output = some out) :
    (∀ s, expected = .str s → startsWithSigil s = true →
        matchWhen sync frame = (true, frame.bind (s.drop 1) (r.input.get k))) ∧
    (isBinder expected = none → pyEq (r.input.get k) expected = false →
        matchWhen sync frame = (false, frame)) ∧
    (isBinder expected = none → pyEq (r.input.get k) expected = true →
        matchWhen sync frame = (true, frame)) := by
  refine ⟨?_, ?_, ?_⟩
  · intro s hs hsig
    subst hs
    simp [matchWhen, hpats, matchPats, hlast, hout, matchInputs, isBinder, hsig, matchOutputs]
  · intro hbind hne
    simp [matchWhen, hpats, matchPats, hlast, hout, matchInputs, hbind, hne]
  · intro hbind heq
    simp [matchWhen, hpats, matchPats, hlast, hout, matchInputs, hbind, heq, matchOutputs]

/-- C5 witness: against a concrete record with input `x = "v"`, the
placeholder term `$y` matches and binds `y` to `"v"`; the literal term
`"w"` does not match; the literal term `"v"` does. -/
theorem c5_sigil_binds_literal_compares_witness :
    (lastRec [{ id := 0, concept := "P", action := "op", input := .cons "x" (.str "v") .nil, output := some .nil, flow := "f", t := 0 }] "P" "op" = some { id := 0, concept := "P", action := "op", input := .cons "x" (.str "v") .nil, output := some .nil, flow := "f", t := 0 }) ∧
    matchWhen { name := "S", whenPats := [{ concept := "P", action := "op", inputs := .cons "x" (.str "$y") .nil, outputs := [] }], whereFn := none, thenFn := fun _ => [] } { flow := "f", actions := [{ id := 0, concept := "P", action := "op", input := .cons "x" (.str "v") .nil, output := some .nil, flow := "f", t := 0 }], vars := [] } = (true, { flow := "f", actions := [{ id := 0, concept := "P", action := "op", input := .cons "x" (.str "v") .nil, output := some .nil, flow := "f", t := 0 }], vars := [("y", .str "v")] }) ∧
    matchWhen { name := "S", whenPats := [{ concept := "P", action := "op", inputs := .cons "x" (.str "w") .nil, outputs := [] }], whereFn := none, thenFn := fun _ => [] } { flow := "f", actions := [{ id := 0, concept := "P", action := "op", input := .cons "x" (.str "v") .nil, output := some .nil, flow := "f", t := 0 }], vars := [] } = (false, { flow := "f", actions := [{ id := 0, concept := "P", action := "op", input := .cons "x" (.str "v") .nil, output := some .nil, flow := "f", t := 0 }], vars := [] }) := by
  refine ⟨rfl, ?_, ?_⟩
  · exact (c5_sigil_binds_literal_compares { name := "S", whenPats := [{ concept := "P", action := "op", inputs := .cons "x" (.str "$y") .nil, outputs := [] }], whereFn := none, thenFn := fun _ => [] } { flow := "f", actions := [{ id := 0, concept := "P", action := "op", input := .cons "x" (.str "v") .nil, output := some .nil, flow := "f", t := 0 }], vars := [] } "P" "op" "x" (.str "$y") { id := 0, concept := "P", action := "op", input := .cons "x" (.str "v") .nil, output := some .nil, flow := "f", t := 0 } .nil rfl rfl rfl).1 "$y" rfl rfl
  · exact (c5_sigil_binds_literal_compares { name := "S", whenPats := [{ concept := "P", action := "op", inputs := .cons "x" (.str "w") .nil, outputs := [] }], whereFn := none, thenFn := fun _ => [] } { flow := "f", actions := [{ id := 0, concept := "P", action := "op", input := .cons "x" (.str "v") .nil, output := some .nil, flow := "f", t := 0 }], vars := [] } "P" "op" "x" (.str "w") { id := 0, concept := "P", action := "op", input := .cons "x" (.str "v") .nil, output := some .nil, flow := "f", t := 0 } .nil rfl rfl rfl).2.1 rfl (by decide)

/-- C7: For a when-pattern with a declared output binding, matched against
the most recent qualifying record: if the declared output key is present in
the record's output map, the named frame variable is bound to that output
value and the pattern matches; if the key is absent, the match aborts and
the rule does not fire. -/
theorem c7_output_binding_requires_key (sync : Sync) (frame : Frame)
    (pc pa okKey var : String) (r : ActionRecord) (out : ValueDict)
    (hpats : sync.whenPats = [{ concept := pc, action := pa, inputs := .nil, outputs := [(okKey, var)] }])
    (hlast : lastRec frame.actions pc pa = some r)
    (hout : r.output = some out) :
    (∀ v, out.lookup okKey = some v → matchWhen sync frame = (true, frame.bind var v)) ∧
    (out.lookup okKey = none → matchWhen sync frame = (false, frame)) := by
  constructor
  · intro v hv
    simp [matchWhen, hpats, matchPats, hlast, hout, matchInputs, matchOutputs, hv]
  · intro hv
    simp [matchWhen, hpats, matchPats, hlast, hout, matchInputs, matchOutputs, hv]

/-- C7 witness: a detect-style record whose output has key `detections`
drives the rule and binds the variable; the same rule against a record
whose output lacks the key does not fire. -/
theorem c7_output_binding_requires_key_witness :
    (ValueDict.lookup (.cons "detections" (.str "X") .nil) "detections" = some (.str "X")) ∧
    matchWhen { name := "S", whenPats := [{ concept := "D", action := "detect", inputs := .nil, outputs := [("detections", "det")] }], whereFn := none, thenFn := fun _ => [] } { flow := "f", actions := [{ id := 0, concept := "D", action := "detect", input := .nil, output := some (.cons "detections" (.str "X") .nil), flow := "f", t := 0 }], vars := [] } = (true, { flow := "f", actions := [{ id := 0, concept := "D", action := "detect", input := .nil, output := some (.cons "detections" (.str "X") .nil), flow := "f", t := 0 }], vars := [("det", .str "X")] }) ∧
    matchWhen { name := "S", whenPats := [{ concept := "D", action := "detect", inputs := .nil, outputs := [("detections", "det")] }], whereFn := none, thenFn := fun _ => [] } { flow := "f", actions := [{ id := 0, concept := "D", action := "detect", input := .nil, output := some .nil, flow := "f", t := 0 }], vars := [] } = (false, { flow := "f", actions := [{ id := 0, concept := "D", action := "detect", input := .nil, output := some .nil, flow := "f", t := 0 }], vars := [] }) := by
  refine ⟨rfl, ?_, ?_⟩
  · exact (c7_output_binding_requires_key { name := "S", whenPats := [{ concept := "D", action := "detect", inputs := .nil, outputs := [("detections", "det")] }], whereFn := none, thenFn := fun _ => [] } { flow := "f", actions := [{ id := 0, concept := "D", action := "detect", input := .nil, output := some (.cons "detections" (.str "X") .nil), flow := "f", t := 0 }], vars := [] } "D" "detect" "detections" "det" { id := 0, concept := "D", action := "detect", input := .nil, output := some (.cons "detections" (.str "X") .nil), flow := "f", t := 0 } (.cons "detections" (.str "X") .nil) rfl rfl rfl).1 (.str "X") rfl
  · exact (c7_output_binding_requires_key { name := "S", whenPats := [{ concept := "D", action := "detect", inputs := .nil, outputs := [("detections", "det")] }], whereFn := none, thenFn := fun _ => [] } { flow := "f", actions := [{ id := 0, concept := "D", action := "detect", input := .nil, output := some .nil, flow := "f", t := 0 }], vars := [] } "D" "detect" "detections" "det" { id := 0, concept := "D", action := "detect", input := .nil, output := some .nil, flow := "f", t := 0 } .nil rfl rfl rfl).2 rfl

/-- C10: When a when-pattern declares an input term for a key absent from
the matched record's input map, the match does not abort on account of the
missing key: `rec.input.get(k)` yields `None` (`Value.null`); a binding
placeholder binds the frame variable to that null value and matching
continues, and a literal term is compared for equality against null. -/
theorem c10_missing_input_key_reads_null (k : String) (expected : Value)
    (rest inp : ValueDict) (frame : Frame) (hmiss : inp.lookup k = none) :
    (inp.get k = .null) ∧
    (∀ v, isBinder expected = some v →
        matchInputs (.cons k expected rest) inp frame =
          matchInputs rest inp (frame.bind v .null)) ∧
    (isBinder expected = none →
        matchInputs (.cons k expected rest) inp frame =
          (if pyEq .null expected then matchInputs rest inp frame else (false, frame))) := by
  have hget : inp.get k = .null := by simp [ValueDict.get, hmiss]
  refine ⟨hget, ?_, ?_⟩
  · intro v hv
    simp [matchInputs, hget, hv]
  · intro hv
    simp [matchInputs, hget, hv]

/-- C10 witness: with an empty record input, the placeholder term `$y`
binds `y` to null and the singleton pattern still matches; the literal
term `"w"` is compared against null and fails. -/
theorem c10_missing_input_key_reads_null_witness :
    (ValueDict.lookup .nil "x" = none) ∧
    matchInputs (.cons "x" (.str "$y") .nil) .nil { flow := "f", actions := [], vars := [] } =
      matchInputs .nil .nil (({ flow := "f", actions := [], vars := [] } : Frame).bind "y" .null) ∧
    matchInputs (.cons "x" (.str "w") .nil) .nil { flow := "f", actions := [], vars := [] } =
      (if pyEq .null (.str "w") then matchInputs .nil .nil { flow := "f", actions := [], vars := [] } else (false, { flow := "f", actions := [], vars := [] })) := by
  refine ⟨rfl, ?_, ?_⟩
  · exact (c10_missing_input_key_reads_null "x" (.str "$y") .nil .nil { flow := "f", actions := [], vars := [] } rfl).2.1 "y" (by decide)
  · exact (c10_missing_input_key_reads_null "x" (.str "w") .nil .nil { flow := "f", actions := [], vars := [] } rfl).2.2 (by decide)

/-- C8: Match evaluation is not atomic with respect to the variable
environment.  First conjunct: when a rule's match fails on a later literal
term, the binding already made by an earlier placeholder term of the same
pattern remains in the returned frame.  Second conjunct: a single frame is
shared by all rules of one pass — after a failed match the pass continues
with the frame returned by the failed match (bindings included), so those
bindings are visible to every later rule.  Third conjunct: after a
successful match and guard, both the firing rule's effect producer and the
remaining rules of the pass receive the fully-bound frame. -/
theorem c8_frame_shared_and_bindings_persist :
    (∀ (inp : ValueDict) (frame : Frame) (k1 k2 : String) (e1 lit : Value) (x : String),
        isBinder e1 = some x → isBinder lit = none → pyEq (inp.get k2) lit = false →
        matchInputs (.cons k1 e1 (.cons k2 lit .nil)) inp frame =
          (false, frame.bind x (inp.get k1))) ∧
    (∀ invokeFn (sync : Sync) rest (frame frame1 : Frame) st progress,
        matchWhen sync frame = (false, frame1) →
        runPass invokeFn (sync :: rest) frame st progress =
          runPass invokeFn rest frame1 st progress) ∧
    (∀ invokeFn (sync : Sync) rest (frame frame1 frame2 : Frame) st progress,
        matchWhen sync frame = (true, frame1) →
        applyWhere sync.whereFn frame1 = (true, frame2) →
        runPass invokeFn (sync :: rest) frame st progress =
          (match runThen invokeFn (sync.thenFn frame2) st progress with
           | .ok st1 p1 => runPass invokeFn rest frame2 st1 p1
           | .err st1 => .err st1
           | .fuelOut st1 => .fuelOut st1)) := by
  refine ⟨?_, ?_, ?_⟩
  · intro inp frame k1 k2 e1 lit x hb hl hne
    simp [matchInputs, hb, hl, hne]
  · intro invokeFn sync rest frame frame1 st progress hm
    simp [runPass, hm]
  · intro invokeFn sync rest frame frame1 frame2 st progress hm hw
    simp [runPass, hm, hw]

/-- C8 witness: the pattern `(k1 ↦ $x, k2 ↦ "w")` against an input map
`(k1 ↦ "v")` fails on the literal term, yet the returned frame carries the
binding `x ↦ "v"` made before the failure. -/
theorem c8_frame_shared_and_bindings_persist_witness :
    isBinder (.str "$x") = some "x" ∧
    matchInputs (.cons "k1" (.str "$x") (.cons "k2" (.str "w") .nil)) (.cons "k1" (.str "v") .nil) { flow := "f", actions := [], vars := [] } =
      (false, ({ flow := "f", actions := [], vars := [] } : Frame).bind "x" ((ValueDict.cons "k1" (.str "v") .nil).get "k1")) :=
  ⟨by decide, c8_frame_shared_and_bindings_persist.1 (.cons "k1" (.str "v") .nil) { flow := "f", actions := [], vars := [] } "k1" "k2" (.str "$x") (.str "w") "x" (by decide) (by decide) (by decide)⟩

/-- C6: If `invoke` is called with an unknown provider name (a `KeyError`
from the concept registry), or dispatch of the named action fails because
no such action exists (`AttributeError` in `perform`), the invocation
aborts with an error carrying the state *exactly* as it was — in
particular no record, not even a partial one, was appended to the flow's
log. -/
theorem c6_failed_dispatch_appends_nothing (fuel : Nat) (cfg : Config)
    (st : EngineState) (c a : String) (inp : ValueDict) :
    (lookupConcept cfg.concepts c = none → invoke fuel cfg st c a inp = .err st) ∧
    (∀ impl, lookupConcept cfg.concepts c = some impl → impl a inp = none →
        invoke fuel cfg st c a inp = .err st) := by
  constructor
  · intro hc
    simp [invoke, afterAppend, hc]
  · intro impl hc ho
    simp [invoke, afterAppend, hc, ho]

/-- C6 witness: invoking an unregistered provider, and invoking a
registered provider with an unknown action, both yield the error outcome
carrying the unchanged state (in particular the empty log stays empty). -/
theorem c6_failed_dispatch_appends_nothing_witness :
    (lookupConcept ([] : List (String × ConceptImpl)) "Nope" = none) ∧
    invoke 1 { concepts := [], syncs := [], flow := "f" } { log := [], emitted := [], nextId := 0, ruleCalls := [] } "Nope" "op" .nil = .err { log := [], emitted := [], nextId := 0, ruleCalls := [] } ∧
    invoke 1 { concepts := [("A", fun a _ => if a = "a" then some (some .nil) else none)], syncs := [], flow := "f" } { log := [], emitted := [], nextId := 0, ruleCalls := [] } "A" "missing" .nil = .err { log := [], emitted := [], nextId := 0, ruleCalls := [] } := by
  refine ⟨rfl, ?_, ?_⟩
  · exact (c6_failed_dispatch_appends_nothing 1 _ _ "Nope" "op" .nil).1 rfl
  · exact (c6_failed_dispatch_appends_nothing 1 _ _ "A" "missing" .nil).2 (fun a _ => if a = "a" then some (some .nil) else none) rfl rfl

/-- C9: Effect deduplication constrains only rule-produced effects.  A
direct external `invoke` neither consults nor updates the flow's
emitted-set: even when the canonical key of the invoked triple is already
in the emitted-set, the call dispatches and appends its record (first
conjunct; with no rules registered, the cascade adds nothing else), a
second identical invocation appends a second record with the same
(provider, operation, input) but a fresh id (second conjunct), and the
emitted-set and rule-invocation trace of the final state are exactly those
of the initial state (third and fourth conjuncts) — so a rule effect with
that same triple can still fire once afterwards. -/
theorem c9_direct_invoke_ignores_dedup (fuel : Nat) (cfg : Config)
    (st : EngineState) (c a : String) (inp : ValueDict) (impl : ConceptImpl)
    (out : Option ValueDict)
    (hsyncs : cfg.syncs = [])
    (hc : lookupConcept cfg.concepts c = some impl)
    (ho : impl a inp = some out)
    (_hkey : canonKey c a inp ∈ st.emitted) :
    invoke (fuel + 1) cfg st c a inp = .ok { st with log := st.log ++ [{ id := st.nextId, concept := c, action := a, input := inp, output := out, flow := cfg.flow, t := st.nextId }], nextId := st.nextId + 1 } { id := st.nextId, concept := c, action := a, input := inp, output := out, flow := cfg.flow, t := st.nextId } ∧
    invoke (fuel + 1) cfg { st with log := st.log ++ [{ id := st.nextId, concept := c, action := a, input := inp, output := out, flow := cfg.flow, t := st.nextId }], nextId := st.nextId + 1 } c a inp = .ok { st with log := (st.log ++ [{ id := st.nextId, concept := c, action := a, input := inp, output := out, flow := cfg.flow, t := st.nextId }]) ++ [{ id := st.nextId + 1, concept := c, action := a, input := inp, output := out, flow := cfg.flow, t := st.nextId + 1 }], nextId := st.nextId + 2 } { id := st.nextId + 1, concept := c, action := a, input := inp, output := out, flow := cfg.flow, t := st.nextId + 1 } ∧
    ({ id := st.nextId, concept := c, action := a, input := inp, output := out, flow := cfg.flow, t := st.nextId } : ActionRecord).id ≠ ({ id := st.nextId + 1, concept := c, action := a, input := inp, output := out, flow := cfg.flow, t := st.nextId + 1 } : ActionRecord).id ∧
    ((invoke (fuel + 1) cfg st c a inp).state).emitted = st.emitted ∧
    ((invoke (fuel + 1) cfg st c a inp).state).ruleCalls = st.ruleCalls := by
  have h1 : ∀ st' : EngineState, invoke (fuel + 1) cfg st' c a inp = .ok { st' with log := st'.log ++ [{ id := st'.nextId, concept := c, action := a, input := inp, output := out, flow := cfg.flow, t := st'.nextId }], nextId := st'.nextId + 1 } { id := st'.nextId, concept := c, action := a, input := inp, output := out, flow := cfg.flow, t := st'.nextId } := by
    intro st'
    simp [invoke, afterAppend, hc, ho, evalSyncs, hsyncs, runPass]
  refine ⟨h1 st, ?_, by simp, by rw [h1 st]; rfl, by rw [h1 st]; rfl⟩
  have h2 := h1 { st with log := st.log ++ [{ id := st.nextId, concept := c, action := a, input := inp, output := out, flow := cfg.flow, t := st.nextId }], nextId := st.nextId + 1 }
  simpa using h2

/-- C9 witness: with the key `("A", "a", "\x7b\x7d")` already in the
emitted-set, a direct invocation still appends its record, a second one
appends another with a fresh id, and the emitted-set is untouched. -/
theorem c9_direct_invoke_ignores_dedup_witness :
    canonKey "A" "a" .nil ∈ [("A", "a", "\x7b\x7d")] ∧
    ((invoke 1 { concepts := [("A", fun a _ => if a = "a" then some (some .nil) else none)], syncs := [], flow := "f" } { log := [], emitted := [("A", "a", "\x7b\x7d")], nextId := 0, ruleCalls := [] } "A" "a" .nil).state).emitted = [("A", "a", "\x7b\x7d")] := by
  have h := c9_direct_invoke_ignores_dedup 0 { concepts := [("A", fun a _ => if a = "a" then some (some .nil) else none)], syncs := [], flow := "f" } { log := [], emitted := [("A", "a", "\x7b\x7d")], nextId := 0, ruleCalls := [] } "A" "a" .nil (fun a _ => if a = "a" then some (some .nil) else none) (some .nil) rfl rfl rfl (by decide)
  exact ⟨by decide, h.2.2.2.1⟩

theorem char_toNat_inj {c1 c2 : Char} (h : c1.toNat = c2.toNat) : c1 = c2 :=
  Char.eq_of_val_eq (UInt32.toNat.inj h)

theorem char_valid_nat (c : Char) :
    c.toNat < 0xd800 ∨ (0xdfff < c.toNat ∧ c.toNat < 0x110000) := c.valid

theorem digitChar_inj16 : ∀ a, a < 16 → ∀ b, b < 16 →
    Nat.digitChar a = Nat.digitChar b → a = b := by decide

theorem digitChar_isDigit : ∀ d, d < 10 → (Nat.digitChar d).isDigit = true := by decide

theorem hex4_inj {m1 m2 : Nat} {u1 u2 : List Char} (h1 : m1 < 0x10000)
    (h2 : m2 < 0x10000) (h : hex4 m1 ++ u1 = hex4 m2 ++ u2) : m1 = m2 ∧ u1 = u2 := by
  simp only [hex4, List.cons_append, List.nil_append, List.cons.injEq] at h
  obtain ⟨e1, e2, e3, e4, hu⟩ := h
  refine ⟨?_, hu⟩
  have d1 := digitChar_inj16 _ (Nat.mod_lt _ (by norm_num)) _ (Nat.mod_lt _ (by norm_num)) e1
  have d2 := digitChar_inj16 _ (Nat.mod_lt _ (by norm_num)) _ (Nat.mod_lt _ (by norm_num)) e2
  have d3 := digitChar_inj16 _ (Nat.mod_lt _ (by norm_num)) _ (Nat.mod_lt _ (by norm_num)) e3
  have d4 := digitChar_inj16 _ (Nat.mod_lt _ (by norm_num)) _ (Nat.mod_lt _ (by norm_num)) e4
  omega

theorem shortEsc_some_spec {c e : Char} (h : shortEsc c = some e) :
    (c = '"' ∧ e = '"') ∨ (c = '\\' ∧ e = '\\') ∨ (c.toNat = 8 ∧ e = 'b') ∨
    (c.toNat = 9 ∧ e = 't') ∨ (c.toNat = 10 ∧ e = 'n') ∨ (c.toNat = 12 ∧ e = 'f') ∨
    (c.toNat = 13 ∧ e = 'r') := by
  unfold shortEsc at h
  split_ifs at h with g1 g2 g3 g4 g5 g6 g7 <;>
    simp only [Option.some.injEq] at h
  · exact Or.inl ⟨g1, h.symm⟩
  · exact Or.inr (Or.inl ⟨g2, h.symm⟩)
  · exact Or.inr (Or.inr (Or.inl ⟨g3, h.symm⟩))
  · exact Or.inr (Or.inr (Or.inr (Or.inl ⟨g4, h.symm⟩)))
  · exact Or.inr (Or.inr (Or.inr (Or.inr (Or.inl ⟨g5, h.symm⟩))))
  · exact Or.inr (Or.inr (Or.inr (Or.inr (Or.inr (Or.inl ⟨g6, h.symm⟩)))))
  · exact Or.inr (Or.inr (Or.inr (Or.inr (Or.inr (Or.inr ⟨g7, h.symm⟩)))))

theorem shortEsc_inj {c1 c2 : Char} {e : Char} (h1 : shortEsc c1 = some e)
    (h2 : shortEsc c2 = some e) : c1 = c2 := by
  have s1 := shortEsc_some_spec h1
  have s2 := shortEsc_some_spec h2
  rcases s1 with ⟨hc, he⟩ | ⟨hc, he⟩ | ⟨hc, he⟩ | ⟨hc, he⟩ | ⟨hc, he⟩ | ⟨hc, he⟩ | ⟨hc, he⟩ <;>
    subst he <;>
    rcases s2 with ⟨hd, he⟩ | ⟨hd, he⟩ | ⟨hd, he⟩ | ⟨hd, he⟩ | ⟨hd, he⟩ | ⟨hd, he⟩ | ⟨hd, he⟩ <;>
    first
      | (exact absurd he (by decide))
      | (subst_vars; rfl)
      | (exact char_toNat_inj (by omega))

theorem shortEsc_ne_u {c e : Char} (h : shortEsc c = some e) : e ≠ 'u' := by
  unfold shortEsc at h
  split_ifs at h <;>
    first
      | (simp only [Option.some.injEq] at h; subst h; decide)
      | exact Option.noConfusion h

theorem shortEsc_none_spec {c : Char} (h : shortEsc c = none) :
    c ≠ '"' ∧ c ≠ '\\' := by
  unfold shortEsc at h
  split_ifs at h with g1 g2 g3 g4 g5 g6 g7 <;>
    first
      | exact Option.noConfusion h
      | exact ⟨g1, g2⟩

theorem escapeChar_eq_short {c e : Char} (hs : shortEsc c = some e) :
    escapeChar c = ['\\', e] := by
  simp [escapeChar, hs]

theorem escapeChar_eq_plain {c : Char} (hs : shortEsc c = none)
    (hp : 0x20 ≤ c.toNat ∧ c.toNat ≤ 0x7e) : escapeChar c = [c] := by
  simp [escapeChar, hs, hp]

theorem escapeChar_eq_bmp {c : Char} (hs : shortEsc c = none)
    (hp : ¬(0x20 ≤ c.toNat ∧ c.toNat ≤ 0x7e)) (hq : c.toNat < 0x10000) :
    escapeChar c = '\\' :: 'u' :: hex4 c.toNat := by
  simp [escapeChar, hs, hp, hq]

theorem escapeChar_eq_astral {c : Char} (hs : shortEsc c = none)
    (hp : ¬(0x20 ≤ c.toNat ∧ c.toNat ≤ 0x7e)) (hq : ¬ c.toNat < 0x10000) :
    escapeChar c = ('\\' :: 'u' :: hex4 (0xd800 + (c.toNat - 0x10000) / 0x400)) ++
      ('\\' :: 'u' :: hex4 (0xdc00 + (c.toNat - 0x10000) % 0x400)) := by
  simp [escapeChar, hs, hp, hq]

theorem escapeChar_head (c : Char) : ∃ d ds, escapeChar c = d :: ds ∧ d ≠ '"' := by
  cases hs : shortEsc c with
  | some e => exact ⟨'\\', [e], escapeChar_eq_short hs, by decide⟩
  | none =>
      by_cases hp : 0x20 ≤ c.toNat ∧ c.toNat ≤ 0x7e
      · exact ⟨c, [], escapeChar_eq_plain hs hp, (shortEsc_none_spec hs).1⟩
      · by_cases hq : c.toNat < 0x10000
        · exact ⟨'\\', 'u' :: hex4 c.toNat, escapeChar_eq_bmp hs hp hq, by decide⟩
        · exact ⟨'\\', 'u' :: hex4 (0xd800 + (c.toNat - 0x10000) / 0x400) ++
            '\\' :: 'u' :: hex4 (0xdc00 + (c.toNat - 0x10000) % 0x400),
            by rw [escapeChar_eq_astral hs hp hq]; simp, by decide⟩

theorem escapeChar_prefix {c1 c2 : Char} {u1 u2 : List Char}
    (h : escapeChar c1 ++ u1 = escapeChar c2 ++ u2) : c1 = c2 ∧ u1 = u2 := by
  cases hs1 : shortEsc c1 with
  | some e1 =>
      rw [escapeChar_eq_short hs1] at h
      cases hs2 : shortEsc c2 with
      | some e2 =>
          rw [escapeChar_eq_short hs2] at h
          simp only [List.cons_append, List.nil_append, List.cons.injEq, true_and] at h
          obtain ⟨he, hu⟩ := h
          subst he
          exact ⟨shortEsc_inj hs1 hs2, hu⟩
      | none =>
          by_cases hp2 : 0x20 ≤ c2.toNat ∧ c2.toNat ≤ 0x7e
          · rw [escapeChar_eq_plain hs2 hp2] at h
            simp only [List.cons_append, List.nil_append, List.singleton_append,
              List.cons.injEq] at h
            exact absurd h.1.symm (shortEsc_none_spec hs2).2
          · by_cases hq2 : c2.toNat < 0x10000
            · rw [escapeChar_eq_bmp hs2 hp2 hq2] at h
              simp only [List.cons_append, List.nil_append, List.cons.injEq, true_and] at h
              exact absurd h.1 (shortEsc_ne_u hs1)
            · rw [escapeChar_eq_astral hs2 hp2 hq2] at h
              simp only [List.cons_append, List.nil_append, List.append_assoc,
                List.cons.injEq, true_and] at h
              exact absurd h.1 (shortEsc_ne_u hs1)
  | none =>
      cases hs2 : shortEsc c2 with
      | some e2 =>
          rw [escapeChar_eq_short hs2] at h
          by_cases hp1 : 0x20 ≤ c1.toNat ∧ c1.toNat ≤ 0x7e
          · rw [escapeChar_eq_plain hs1 hp1] at h
            simp only [List.cons_append, List.nil_append, List.singleton_append,
              List.cons.injEq] at h
            exact absurd h.1 (shortEsc_none_spec hs1).2
          · by_cases hq1 : c1.toNat < 0x10000
            · rw [escapeChar_eq_bmp hs1 hp1 hq1] at h
              simp only [List.cons_append, List.nil_append, List.cons.injEq, true_and] at h
              exact absurd h.1.symm (shortEsc_ne_u hs2)
            · rw [escapeChar_eq_astral hs1 hp1 hq1] at h
              simp only [List.cons_append, List.nil_append, List.append_assoc,
                List.cons.injEq, true_and] at h
              exact absurd h.1.symm (shortEsc_ne_u hs2)
      | none =>
          by_cases hp1 : 0x20 ≤ c1.toNat ∧ c1.toNat ≤ 0x7e
          · rw [escapeChar_eq_plain hs1 hp1] at h
            by_cases hp2 : 0x20 ≤ c2.toNat ∧ c2.toNat ≤ 0x7e
            · rw [escapeChar_eq_plain hs2 hp2] at h
              simp only [List.singleton_append, List.cons.injEq] at h
              exact ⟨h.1, h.2⟩
            · by_cases hq2 : c2.toNat < 0x10000
              · rw [escapeChar_eq_bmp hs2 hp2 hq2] at h
                simp only [List.singleton_append, List.cons_append, List.nil_append,
                  List.cons.injEq] at h
                exact absurd h.1 (shortEsc_none_spec hs1).2
              · rw [escapeChar_eq_astral hs2 hp2 hq2] at h
                simp only [List.singleton_append, List.cons_append, List.nil_append,
                  List.append_assoc, List.cons.injEq] at h
                exact absurd h.1 (shortEsc_none_spec hs1).2
          · by_cases hq1 : c1.toNat < 0x10000
            · rw [escapeChar_eq_bmp hs1 hp1 hq1] at h
              by_cases hp2 : 0x20 ≤ c2.toNat ∧ c2.toNat ≤ 0x7e
              · rw [escapeChar_eq_plain hs2 hp2] at h
                simp only [List.singleton_append, List.cons_append, List.nil_append,
                  List.cons.injEq] at h
                exact absurd h.1.symm (shortEsc_none_spec hs2).2
              · by_cases hq2 : c2.toNat < 0x10000
                · rw [escapeChar_eq_bmp hs2 hp2 hq2] at h
                  simp only [hex4, List.cons_append, List.nil_append, List.cons.injEq,
                    true_and] at h
                  obtain ⟨d1, d2, d3, d4, hu⟩ := h
                  have e1 := digitChar_inj16 _ (Nat.mod_lt _ (by norm_num)) _
                    (Nat.mod_lt _ (by norm_num)) d1
                  have e2 := digitChar_inj16 _ (Nat.mod_lt _ (by norm_num)) _
                    (Nat.mod_lt _ (by norm_num)) d2
                  have e3 := digitChar_inj16 _ (Nat.mod_lt _ (by norm_num)) _
                    (Nat.mod_lt _ (by norm_num)) d3
                  have e4 := digitChar_inj16 _ (Nat.mod_lt _ (by norm_num)) _
                    (Nat.mod_lt _ (by norm_num)) d4
                  exact ⟨char_toNat_inj (by omega), hu⟩
                · rw [escapeChar_eq_astral hs2 hp2 hq2] at h
                  exfalso
                  simp only [hex4, List.cons_append, List.nil_append, List.append_assoc,
                    List.cons.injEq, true_and] at h
                  obtain ⟨d1, d2, d3, d4, -⟩ := h
                  have e1 := digitChar_inj16 _ (Nat.mod_lt _ (by norm_num)) _
                    (Nat.mod_lt _ (by norm_num)) d1
                  have e2 := digitChar_inj16 _ (Nat.mod_lt _ (by norm_num)) _
                    (Nat.mod_lt _ (by norm_num)) d2
                  have e3 := digitChar_inj16 _ (Nat.mod_lt _ (by norm_num)) _
                    (Nat.mod_lt _ (by norm_num)) d3
                  have e4 := digitChar_inj16 _ (Nat.mod_lt _ (by norm_num)) _
                    (Nat.mod_lt _ (by norm_num)) d4
                  have hv1 := char_valid_nat c1
                  have hv2 := char_valid_nat c2
                  omega
            · rw [escapeChar_eq_astral hs1 hp1 hq1] at h
              by_cases hp2 : 0x20 ≤ c2.toNat ∧ c2.toNat ≤ 0x7e
              · rw [escapeChar_eq_plain hs2 hp2] at h
                simp only [List.singleton_append, List.cons_append, List.nil_append,
                  List.append_assoc, List.cons.injEq] at h
                exact absurd h.1.symm (shortEsc_none_spec hs2).2
              · by_cases hq2 : c2.toNat < 0x10000
                · rw [escapeChar_eq_bmp hs2 hp2 hq2] at h
                  exfalso
                  simp only [hex4, List.cons_append, List.nil_append, List.append_assoc,
                    List.cons.injEq, true_and] at h
                  obtain ⟨d1, d2, d3, d4, -⟩ := h
                  have e1 := digitChar_inj16 _ (Nat.mod_lt _ (by norm_num)) _
                    (Nat.mod_lt _ (by norm_num)) d1
                  have e2 := digitChar_inj16 _ (Nat.mod_lt _ (by norm_num)) _
                    (Nat.mod_lt _ (by norm_num)) d2
                  have e3 := digitChar_inj16 _ (Nat.mod_lt _ (by norm_num)) _
                    (Nat.mod_lt _ (by norm_num)) d3
                  have e4 := digitChar_inj16 _ (Nat.mod_lt _ (by norm_num)) _
                    (Nat.mod_lt _ (by norm_num)) d4
                  have hv1 := char_valid_nat c1
                  have hv2 := char_valid_nat c2
                  omega
                · rw [escapeChar_eq_astral hs2 hp2 hq2] at h
                  simp only [hex4, List.cons_append, List.nil_append, List.append_assoc,
                    List.cons.injEq, true_and] at h
                  obtain ⟨d1, d2, d3, d4, d5, d6, d7, d8, hu⟩ := h
                  have e1 := digitChar_inj16 _ (Nat.mod_lt _ (by norm_num)) _
                    (Nat.mod_lt _ (by norm_num)) d1
                  have e2 := digitChar_inj16 _ (Nat.mod_lt _ (by norm_num)) _
                    (Nat.mod_lt _ (by norm_num)) d2
                  have e3 := digitChar_inj16 _ (Nat.mod_lt _ (by norm_num)) _
                    (Nat.mod_lt _ (by norm_num)) d3
                  have e4 := digitChar_inj16 _ (Nat.mod_lt _ (by norm_num)) _
                    (Nat.mod_lt _ (by norm_num)) d4
                  have e5 := digitChar_inj16 _ (Nat.mod_lt _ (by norm_num)) _
                    (Nat.mod_lt _ (by norm_num)) d5
                  have e6 := digitChar_inj16 _ (Nat.mod_lt _ (by norm_num)) _
                    (Nat.mod_lt _ (by norm_num)) d6
                  have e7 := digitChar_inj16 _ (Nat.mod_lt _ (by norm_num)) _
                    (Nat.mod_lt _ (by norm_num)) d7
                  have e8 := digitChar_inj16 _ (Nat.mod_lt _ (by norm_num)) _
                    (Nat.mod_lt _ (by norm_num)) d8
                  have hv1 := char_valid_nat c1
                  have hv2 := char_valid_nat c2
                  exact ⟨char_toNat_inj (by omega), hu⟩

theorem escBody_cons (c : Char) (cs : List Char) :
    escBody (c :: cs) = escapeChar c ++ escBody cs := by
  simp [escBody]

theorem escBody_inj : ∀ (cs1 cs2 t1 t2 : List Char),
    escBody cs1 ++ '"' :: t1 = escBody cs2 ++ '"' :: t2 → cs1 = cs2 ∧ t1 = t2 := by
  intro cs1
  induction cs1 with
  | nil =>
      intro cs2 t1 t2 h
      cases cs2 with
      | nil =>
          refine ⟨rfl, ?_⟩
          simpa [escBody] using h
      | cons c cs =>
          exfalso
          rw [escBody_cons] at h
          obtain ⟨d, ds, hd, hne⟩ := escapeChar_head c
          rw [hd] at h
          simp only [escBody, List.map_nil, List.flatten_nil, List.nil_append,
            List.cons_append, List.append_assoc, List.cons.injEq] at h
          exact hne h.1.symm
  | cons c1 cs1' ih =>
      intro cs2 t1 t2 h
      cases cs2 with
      | nil =>
          exfalso
          rw [escBody_cons] at h
          obtain ⟨d, ds, hd, hne⟩ := escapeChar_head c1
          rw [hd] at h
          simp only [escBody, List.map_nil, List.flatten_nil, List.nil_append,
            List.cons_append, List.append_assoc, List.cons.injEq] at h
          exact hne h.1
      | cons c2 cs2' =>
          rw [escBody_cons, escBody_cons] at h
          rw [List.append_assoc, List.append_assoc] at h
          obtain ⟨hc, ht⟩ := escapeChar_prefix h
          subst hc
          obtain ⟨hcs, ht'⟩ := ih cs2' t1 t2 ht
          exact ⟨by rw [hcs], ht'⟩

theorem escapeStr_inj {s1 s2 : String} {r1 r2 : List Char}
    (h : escapeStr s1 ++ r1 = escapeStr s2 ++ r2) : s1 = s2 ∧ r1 = r2 := by
  simp only [escapeStr, List.cons_append, List.append_assoc, List.singleton_append,
    List.cons.injEq, true_and] at h
  obtain ⟨hd, hr⟩ := escBody_inj s1.data s2.data r1 r2 h
  exact ⟨String.ext hd, hr⟩

theorem digits_map_inj : ∀ (l1 l2 : List Nat), (∀ x, x ∈ l1 → x < 10) →
    (∀ x, x ∈ l2 → x < 10) → l1.map Nat.digitChar = l2.map Nat.digitChar → l1 = l2 := by
  intro l1
  induction l1 with
  | nil =>
      intro l2 _ _ h
      cases l2 with
      | nil => rfl
      | cons y ys => simp at h
  | cons x xs ih =>
      intro l2 h1 h2 h
      cases l2 with
      | nil => simp at h
      | cons y ys =>
          simp only [List.map_cons, List.cons.injEq] at h
          have hx := h1 x (List.mem_cons_self _ _)
          have hy := h2 y (List.mem_cons_self _ _)
          have hxy := digitChar_inj16 x (by omega) y (by omega) h.1
          rw [hxy, ih ys (fun z hz => h1 z (List.mem_cons_of_mem _ hz))
            (fun z hz => h2 z (List.mem_cons_of_mem _ hz)) h.2]

theorem decChars_all_digits (n : Nat) : ∀ x, x ∈ decChars n → x.isDigit = true := by
  intro x hx
  unfold decChars at hx
  by_cases h0 : n = 0
  · simp only [h0, if_pos] at hx
    simp only [List.mem_singleton] at hx
    subst hx
    decide
  · simp only [h0, if_neg, ite_false, List.mem_map] at hx
    obtain ⟨d, hd, hdc⟩ := hx
    rw [List.mem_reverse] at hd
    have := Nat.digits_lt_base (by norm_num) hd
    subst hdc
    exact digitChar_isDigit d this

theorem decChars_zero : decChars 0 = ['0'] := rfl

theorem decChars_pos {n : Nat} (h0 : n ≠ 0) :
    decChars n = (Nat.digits 10 n).reverse.map Nat.digitChar := by
  simp [decChars, h0]

theorem decChars_head (n : Nat) :
    ∃ c cs, decChars n = c :: cs ∧ c.isDigit = true := by
  cases hd : decChars n with
  | nil =>
      exfalso
      by_cases h0 : n = 0
      · rw [h0, decChars_zero] at hd
        exact List.noConfusion hd
      · rw [decChars_pos h0] at hd
        simp only [List.map_eq_nil_iff, List.reverse_eq_nil_iff] at hd
        exact Nat.digits_ne_nil_iff_ne_zero.mpr h0 hd
  | cons c cs =>
      exact ⟨c, cs, rfl, decChars_all_digits n c (by rw [hd]; exact List.mem_cons_self _ _)⟩

theorem allDigits_split : ∀ (xs1 xs2 r1 r2 : List Char),
    (∀ x, x ∈ xs1 → x.isDigit = true) → (∀ x, x ∈ xs2 → x.isDigit = true) →
    TailOK r1 → TailOK r2 → xs1 ++ r1 = xs2 ++ r2 → xs1 = xs2 ∧ r1 = r2 := by
  intro xs1
  induction xs1 with
  | nil =>
      intro xs2 r1 r2 _ h2 ht1 _ h
      cases xs2 with
      | nil => exact ⟨rfl, h⟩
      | cons y ys =>
          exfalso
          simp only [List.nil_append, List.cons_append] at h
          have := ht1 y (ys ++ r2) h
          rw [h2 y (List.mem_cons_self _ _)] at this
          exact Bool.noConfusion this
  | cons x xs ih =>
      intro xs2 r1 r2 h1 h2 ht1 ht2 h
      cases xs2 with
      | nil =>
          exfalso
          simp only [List.nil_append, List.cons_append] at h
          have := ht2 x (xs ++ r1) h.symm
          rw [h1 x (List.mem_cons_self _ _)] at this
          exact Bool.noConfusion this
      | cons y ys =>
          simp only [List.cons_append, List.cons.injEq] at h
          obtain ⟨hxy, h'⟩ := h
          obtain ⟨he, hr⟩ := ih ys r1 r2 (fun z hz => h1 z (List.mem_cons_of_mem _ hz))
            (fun z hz => h2 z (List.mem_cons_of_mem _ hz)) ht1 ht2 h'
          exact ⟨by rw [hxy, he], hr⟩

theorem decChars_eq_single_zero {n : Nat} (h : decChars n = ['0']) : n = 0 := by
  by_cases h0 : n = 0
  · exact h0
  · exfalso
    rw [decChars_pos h0] at h
    cases hd : Nat.digits 10 n with
    | nil => exact Nat.digits_ne_nil_iff_ne_zero.mpr h0 hd
    | cons d ds =>
        rw [hd] at h
        simp only [List.reverse_cons] at h
        cases hds : ds.reverse with
        | nil =>
            rw [hds] at h
            simp only [List.nil_append, List.map_cons, List.map_nil,
              List.cons.injEq] at h
            have hmem : d ∈ Nat.digits 10 n := by
              rw [hd]
              exact List.mem_cons_self _ _
            have hd10 : d < 10 := Nat.digits_lt_base (by norm_num) hmem
            have hdz : d = 0 := by
              have h00 : Nat.digitChar d = Nat.digitChar 0 := by
                rw [h.1]
                rfl
              exact digitChar_inj16 d (by omega) 0 (by norm_num) h00
            subst hdz
            have hof := Nat.ofDigits_digits 10 n
            rw [hd, List.reverse_eq_nil_iff.mp hds] at hof
            simp [Nat.ofDigits] at hof
            exact h0 hof.symm
        | cons e es =>
            rw [hds] at h
            simp only [List.cons_append, List.map_cons, List.cons.injEq] at h
            obtain ⟨-, h'⟩ := h
            cases es <;> simp at h'

theorem decChars_inj {n1 n2 : Nat} (h : decChars n1 = decChars n2) : n1 = n2 := by
  by_cases h1 : n1 = 0 <;> by_cases h2 : n2 = 0
  · omega
  · rw [h1, decChars_zero] at h
    rw [decChars_eq_single_zero h.symm] at h2
    omega
  · rw [h2, decChars_zero] at h
    rw [decChars_eq_single_zero h] at h1
    omega
  · rw [decChars_pos h1, decChars_pos h2] at h
    have hrev := digits_map_inj _ _
      (fun x hx => Nat.digits_lt_base (by norm_num) (List.mem_reverse.mp hx))
      (fun x hx => Nat.digits_lt_base (by norm_num) (List.mem_reverse.mp hx)) h
    have hdig := List.reverse_injective hrev
    have e1 := Nat.ofDigits_digits 10 n1
    have e2 := Nat.ofDigits_digits 10 n2
    rw [hdig, e2] at e1
    exact e1.symm

theorem decChars_split {n1 n2 : Nat} {r1 r2 : List Char} (ht1 : TailOK r1)
    (ht2 : TailOK r2) (h : decChars n1 ++ r1 = decChars n2 ++ r2) :
    n1 = n2 ∧ r1 = r2 := by
  obtain ⟨he, hr⟩ := allDigits_split (decChars n1) (decChars n2) r1 r2
    (decChars_all_digits n1) (decChars_all_digits n2) ht1 ht2 h
  exact ⟨decChars_inj he, hr⟩

theorem intChars_split {v1 v2 : Int} {r1 r2 : List Char} (ht1 : TailOK r1)
    (ht2 : TailOK r2) (h : intChars v1 ++ r1 = intChars v2 ++ r2) :
    v1 = v2 ∧ r1 = r2 := by
  cases v1 with
  | ofNat n1 =>
      cases v2 with
      | ofNat n2 =>
          simp only [intChars] at h
          obtain ⟨he, hr⟩ := decChars_split ht1 ht2 h
          exact ⟨by rw [he], hr⟩
      | negSucc m2 =>
          exfalso
          simp only [intChars, List.cons_append] at h
          obtain ⟨c, cs, hc, hdig⟩ := decChars_head n1
          rw [hc] at h
          simp only [List.cons_append, List.cons.injEq] at h
          rw [h.1] at hdig
          exact Bool.noConfusion hdig
  | negSucc m1 =>
      cases v2 with
      | ofNat n2 =>
          exfalso
          simp only [intChars, List.cons_append] at h
          obtain ⟨c, cs, hc, hdig⟩ := decChars_head n2
          rw [hc] at h
          simp only [List.cons_append, List.cons.injEq] at h
          rw [← h.1] at hdig
          exact Bool.noConfusion hdig
      | negSucc m2 =>
          simp only [intChars, List.cons_append, List.cons.injEq, true_and] at h
          obtain ⟨he, hr⟩ := decChars_split ht1 ht2 h
          have hm : m1 = m2 := by omega
          exact ⟨by rw [hm], hr⟩

theorem intChars_head (v : Int) :
    ∃ c cs, intChars v = c :: cs ∧ (c.isDigit = true ∨ c = '-') := by
  cases v with
  | ofNat n =>
      obtain ⟨c, cs, hc, hdig⟩ := decChars_head n
      exact ⟨c, cs, by simp [intChars, hc], Or.inl hdig⟩
  | negSucc m => exact ⟨'-', decChars (m + 1), rfl, Or.inr rfl⟩

theorem tailOK_nil : TailOK [] := fun _ _ h => List.noConfusion h

theorem tailOK_cons {c : Char} (hc : c.isDigit = false) (r : List Char) :
    TailOK (c :: r) := by
  intro d ds h
  injection h with h1 _
  rw [← h1]
  exact hc

theorem serRaw_head (v : Value) : ∃ c cs, serRaw v = c :: cs ∧
    (c = 'n' ∨ c = 't' ∨ c = 'f' ∨ c = '"' ∨ c = '[' ∨ c = '\x7b' ∨
     c.isDigit = true ∨ c = '-') := by
  match v with
  | .null => exact ⟨'n', _, rfl, by decide⟩
  | .bool true => exact ⟨'t', _, rfl, by decide⟩
  | .bool false => exact ⟨'f', _, rfl, by decide⟩
  | .int n =>
      obtain ⟨c, cs, hc, hd⟩ := intChars_head n
      refine ⟨c, cs, hc, ?_⟩
      rcases hd with hd | hd
      · exact Or.inr (Or.inr (Or.inr (Or.inr (Or.inr (Or.inr (Or.inl hd))))))
      · exact Or.inr (Or.inr (Or.inr (Or.inr (Or.inr (Or.inr (Or.inr hd))))))
  | .str s =>
      exact ⟨'"', escBody s.data ++ ['"'], by simp [serRaw, escapeStr], by decide⟩
  | .obj s =>
      exact ⟨'"', escBody s.data ++ ['"'], by simp [serRaw, escapeStr], by decide⟩
  | .list vs => exact ⟨'[', _, rfl, by decide⟩
  | .dict kvs => exact ⟨'\x7b', _, rfl, by decide⟩

theorem serRaw_ne_delim (v : Value) (x : Char) (cs r : List Char)
    (hx : x = ']' ∨ x = '\x7d' ∨ x = ',') (h : serRaw v ++ r = x :: cs) : False := by
  obtain ⟨c, cs', hc, hdisj⟩ := serRaw_head v
  rw [hc] at h
  simp only [List.cons_append, List.cons.injEq] at h
  obtain ⟨hcx, -⟩ := h
  subst hcx
  rcases hx with hx | hx | hx <;> subst hx <;>
    rcases hdisj with h' | h' | h' | h' | h' | h' | h' | h' <;>
      exact absurd h' (by decide)

theorem serListRest_tailOK (vs : ValueList) (r : List Char) :
    TailOK (serListRest vs ++ ']' :: r) := by
  cases vs with
  | nil =>
      simp only [serListRest, List.nil_append]
      exact tailOK_cons (by decide) r
  | cons v vs' =>
      simp only [serListRest, List.cons_append]
      exact tailOK_cons (by decide) _

theorem serDictRest_tailOK (ds : ValueDict) (r : List Char) :
    TailOK (serDictRest ds ++ '\x7d' :: r) := by
  cases ds with
  | nil =>
      simp only [serDictRest, List.nil_append]
      exact tailOK_cons (by decide) r
  | cons k v ds' =>
      simp only [serDictRest, List.cons_append]
      exact tailOK_cons (by decide) _

theorem int_head_clash {n : Int} {r2 : List Char} {y : Char} {ys : List Char}
    (hy : y.isDigit = false) (hy2 : y ≠ '-') (h : y :: ys = intChars n ++ r2) : False := by
  obtain ⟨c, cs, hc, hd⟩ := intChars_head n
  rw [hc] at h
  simp only [List.cons_append, List.cons.injEq] at h
  obtain ⟨h1, -⟩ := h
  subst h1
  rcases hd with hd | hd
  · rw [hy] at hd
    exact Bool.noConfusion hd
  · exact hy2 hd

theorem str_head_clash {s : String} {r2 : List Char} {y : Char} {ys : List Char}
    (hy : y ≠ '"') (h : y :: ys = escapeStr s ++ r2) : False := by
  simp only [escapeStr, List.cons_append, List.append_assoc, List.cons.injEq] at h
  exact hy h.1

theorem serRawInjAux : ∀ N : Nat,
    (∀ v1 : Value, sizeOf v1 ≤ N → ∀ (v2 : Value) (r1 r2 : List Char),
      noObj v1 = true → noObj v2 = true → TailOK r1 → TailOK r2 →
      serRaw v1 ++ r1 = serRaw v2 ++ r2 → v1 = v2 ∧ r1 = r2) ∧
    (∀ l1 : ValueList, sizeOf l1 ≤ N → ∀ (l2 : ValueList) (r1 r2 : List Char),
      noObjL l1 = true → noObjL l2 = true →
      serList l1 ++ ']' :: r1 = serList l2 ++ ']' :: r2 → l1 = l2 ∧ r1 = r2) ∧
    (∀ l1 : ValueList, sizeOf l1 ≤ N → ∀ (l2 : ValueList) (r1 r2 : List Char),
      noObjL l1 = true → noObjL l2 = true →
      serListRest l1 ++ ']' :: r1 = serListRest l2 ++ ']' :: r2 → l1 = l2 ∧ r1 = r2) ∧
    (∀ d1 : ValueDict, sizeOf d1 ≤ N → ∀ (d2 : ValueDict) (r1 r2 : List Char),
      noObjD d1 = true → noObjD d2 = true →
      serDict d1 ++ '\x7d' :: r1 = serDict d2 ++ '\x7d' :: r2 → d1 = d2 ∧ r1 = r2) ∧
    (∀ d1 : ValueDict, sizeOf d1 ≤ N → ∀ (d2 : ValueDict) (r1 r2 : List Char),
      noObjD d1 = true → noObjD d2 = true →
      serDictRest d1 ++ '\x7d' :: r1 = serDictRest d2 ++ '\x7d' :: r2 → d1 = d2 ∧ r1 = r2) := by
  intro N
  induction N using Nat.strong_induction_on with
  | _ N IH =>
  refine ⟨?_, ?_, ?_, ?_, ?_⟩
  · -- values
    intro v1 hsz v2 r1 r2 hno1 hno2 ht1 ht2 h
    cases v1 with
    | null =>
        cases v2 with
        | null =>
            simp only [serRaw, List.cons_append, List.cons.injEq, true_and] at h
            exact ⟨rfl, h⟩
        | bool b2 =>
            exfalso
            cases b2 <;>
              (simp only [serRaw, List.cons_append] at h;
               injection h with h1 _; exact absurd h1 (by decide))
        | int n2 =>
            exfalso
            simp only [serRaw, List.cons_append] at h
            exact int_head_clash (by decide) (by decide) h
        | str s2 =>
            exfalso
            simp only [serRaw, List.cons_append] at h
            exact str_head_clash (by decide) h
        | obj s2 => simp [noObj] at hno2
        | list vs2 =>
            exfalso
            simp only [serRaw, List.cons_append] at h
            injection h with h1 _
            exact absurd h1 (by decide)
        | dict ds2 =>
            exfalso
            simp only [serRaw, List.cons_append] at h
            injection h with h1 _
            exact absurd h1 (by decide)
    | bool b1 =>
        cases v2 with
        | null =>
            exfalso
            cases b1 <;>
              (simp only [serRaw, List.cons_append] at h;
               injection h with h1 _; exact absurd h1 (by decide))
        | bool b2 =>
            cases b1 <;> cases b2 <;>
              simp only [serRaw, List.cons_append, List.cons.injEq, true_and] at h
            · exact ⟨rfl, h⟩
            · exact absurd h.1 (by decide)
            · exact absurd h.1 (by decide)
            · exact ⟨rfl, h⟩
        | int n2 =>
            exfalso
            cases b1 <;>
              (simp only [serRaw, List.cons_append] at h;
               exact int_head_clash (by decide) (by decide) h)
        | str s2 =>
            exfalso
            cases b1 <;>
              (simp only [serRaw, List.cons_append] at h;
               exact str_head_clash (by decide) h)
        | obj s2 => simp [noObj] at hno2
        | list vs2 =>
            exfalso
            cases b1 <;>
              (simp only [serRaw, List.cons_append] at h;
               injection h with h1 _; exact absurd h1 (by decide))
        | dict ds2 =>
            exfalso
            cases b1 <;>
              (simp only [serRaw, List.cons_append] at h;
               injection h with h1 _; exact absurd h1 (by decide))
    | int n1 =>
        cases v2 with
        | null =>
            exfalso
            simp only [serRaw, List.cons_append] at h
            exact int_head_clash (by decide) (by decide) h.symm
        | bool b2 =>
            exfalso
            cases b2 <;>
              (simp only [serRaw, List.cons_append] at h;
               exact int_head_clash (by decide) (by decide) h.symm)
        | int n2 =>
            simp only [serRaw] at h
            obtain ⟨he, hr⟩ := intChars_split ht1 ht2 h
            exact ⟨by rw [he], hr⟩
        | str s2 =>
            exfalso
            simp only [serRaw, escapeStr, List.cons_append, List.append_assoc] at h
            exact int_head_clash (by decide) (by decide) h.symm
        | obj s2 => simp [noObj] at hno2
        | list vs2 =>
            exfalso
            simp only [serRaw, List.cons_append] at h
            exact int_head_clash (by decide) (by decide) h.symm
        | dict ds2 =>
            exfalso
            simp only [serRaw, List.cons_append] at h
            exact int_head_clash (by decide) (by decide) h.symm
    | str s1 =>
        cases v2 with
        | null =>
            exfalso
            simp only [serRaw, List.cons_append] at h
            exact str_head_clash (by decide) h.symm
        | bool b2 =>
            exfalso
            cases b2 <;>
              (simp only [serRaw, List.cons_append] at h;
               exact str_head_clash (by decide) h.symm)
        | int n2 =>
            exfalso
            simp only [serRaw, escapeStr, List.cons_append, List.append_assoc] at h
            exact int_head_clash (by decide) (by decide) h
        | str s2 =>
            simp only [serRaw] at h
            obtain ⟨he, hr⟩ := escapeStr_inj h
            exact ⟨by rw [he], hr⟩
        | obj s2 => simp [noObj] at hno2
        | list vs2 =>
            exfalso
            simp only [serRaw, List.cons_append] at h
            exact str_head_clash (by decide) h.symm
        | dict ds2 =>
            exfalso
            simp only [serRaw, List.cons_append] at h
            exact str_head_clash (by decide) h.symm
    | obj s1 => simp [noObj] at hno1
    | list vs1 =>
        cases v2 with
        | null =>
            exfalso
            simp only [serRaw, List.cons_append] at h
            injection h with h1 _
            exact absurd h1 (by decide)
        | bool b2 =>
            exfalso
            cases b2 <;>
              (simp only [serRaw, List.cons_append] at h;
               injection h with h1 _; exact absurd h1 (by decide))
        | int n2 =>
            exfalso
            simp only [serRaw, List.cons_append] at h
            exact int_head_clash (by decide) (by decide) h
        | str s2 =>
            exfalso
            simp only [serRaw, List.cons_append] at h
            exact str_head_clash (by decide) h
        | obj s2 => simp [noObj] at hno2
        | list vs2 =>
            simp only [serRaw, List.cons_append, List.append_assoc,
              List.singleton_append, List.cons.injEq, true_and] at h
            simp only [noObj] at hno1 hno2
            have hlt : sizeOf vs1 < N := by
              have h' := hsz
              simp at h'
              omega
            obtain ⟨he, hr⟩ := (IH (sizeOf vs1) hlt).2.1 vs1 (le_refl _) vs2 r1 r2 hno1 hno2 h
            exact ⟨by rw [he], hr⟩
        | dict ds2 =>
            exfalso
            simp only [serRaw, List.cons_append] at h
            injection h with h1 _
            exact absurd h1 (by decide)
    | dict ds1 =>
        cases v2 with
        | null =>
            exfalso
            simp only [serRaw, List.cons_append] at h
            injection h with h1 _
            exact absurd h1 (by decide)
        | bool b2 =>
            exfalso
            cases b2 <;>
              (simp only [serRaw, List.cons_append] at h;
               injection h with h1 _; exact absurd h1 (by decide))
        | int n2 =>
            exfalso
            simp only [serRaw, List.cons_append] at h
            exact int_head_clash (by decide) (by decide) h
        | str s2 =>
            exfalso
            simp only [serRaw, List.cons_append] at h
            exact str_head_clash (by decide) h
        | obj s2 => simp [noObj] at hno2
        | list vs2 =>
            exfalso
            simp only [serRaw, List.cons_append] at h
            injection h with h1 _
            exact absurd h1 (by decide)
        | dict ds2 =>
            simp only [serRaw, List.cons_append, List.append_assoc,
              List.singleton_append, List.cons.injEq, true_and] at h
            simp only [noObj] at hno1 hno2
            have hlt : sizeOf ds1 < N := by
              have h' := hsz
              simp at h'
              omega
            obtain ⟨he, hr⟩ := (IH (sizeOf ds1) hlt).2.2.2.1 ds1 (le_refl _) ds2 r1 r2 hno1 hno2 h
            exact ⟨by rw [he], hr⟩
  · -- serList
    intro l1 hsz l2 r1 r2 hno1 hno2 h
    cases l1 with
    | nil =>
        cases l2 with
        | nil =>
            simp only [serList, List.nil_append, List.cons.injEq, true_and] at h
            exact ⟨rfl, h⟩
        | cons v2 vs2 =>
            exfalso
            simp only [serList, List.nil_append, List.append_assoc] at h
            exact serRaw_ne_delim v2 ']' r1 _ (Or.inl rfl) h.symm
    | cons v1 vs1 =>
        cases l2 with
        | nil =>
            exfalso
            simp only [serList, List.nil_append, List.append_assoc] at h
            exact serRaw_ne_delim v1 ']' r2 _ (Or.inl rfl) h
        | cons v2 vs2 =>
            simp only [serList, List.append_assoc] at h
            simp only [noObjL, Bool.and_eq_true] at hno1 hno2
            have hlt1 : sizeOf v1 < N := by
              have h' := hsz
              simp at h'
              omega
            have hlt2 : sizeOf vs1 < N := by
              have h' := hsz
              simp at h'
              omega
            obtain ⟨hv, htails⟩ := (IH (sizeOf v1) hlt1).1 v1 (le_refl _) v2 _ _ hno1.1 hno2.1
              (serListRest_tailOK vs1 r1) (serListRest_tailOK vs2 r2) h
            obtain ⟨hvs, hr⟩ := (IH (sizeOf vs1) hlt2).2.2.1 vs1 (le_refl _) vs2 r1 r2
              hno1.2 hno2.2 htails
            exact ⟨by rw [hv, hvs], hr⟩
  · -- serListRest
    intro l1 hsz l2 r1 r2 hno1 hno2 h
    cases l1 with
    | nil =>
        cases l2 with
        | nil =>
            simp only [serListRest, List.nil_append, List.cons.injEq, true_and] at h
            exact ⟨rfl, h⟩
        | cons v2 vs2 =>
            exfalso
            simp only [serListRest, List.nil_append, List.cons_append] at h
            injection h with h1 _
            exact absurd h1 (by decide)
    | cons v1 vs1 =>
        cases l2 with
        | nil =>
            exfalso
            simp only [serListRest, List.nil_append, List.cons_append] at h
            injection h with h1 _
            exact absurd h1 (by decide)
        | cons v2 vs2 =>
            simp only [serListRest, List.cons_append, List.append_assoc,
              List.cons.injEq, true_and] at h
            simp only [noObjL, Bool.and_eq_true] at hno1 hno2
            have hlt1 : sizeOf v1 < N := by
              have h' := hsz
              simp at h'
              omega
            have hlt2 : sizeOf vs1 < N := by
              have h' := hsz
              simp at h'
              omega
            obtain ⟨hv, htails⟩ := (IH (sizeOf v1) hlt1).1 v1 (le_refl _) v2 _ _ hno1.1 hno2.1
              (serListRest_tailOK vs1 r1) (serListRest_tailOK vs2 r2) h
            obtain ⟨hvs, hr⟩ := (IH (sizeOf vs1) hlt2).2.2.1 vs1 (le_refl _) vs2 r1 r2
              hno1.2 hno2.2 htails
            exact ⟨by rw [hv, hvs], hr⟩
  · -- serDict
    intro d1 hsz d2 r1 r2 hno1 hno2 h
    cases d1 with
    | nil =>
        cases d2 with
        | nil =>
            simp only [serDict, List.nil_append, List.cons.injEq, true_and] at h
            exact ⟨rfl, h⟩
        | cons k2 v2 ds2 =>
            exfalso
            simp only [serDict, escapeStr, List.nil_append, List.cons_append,
              List.append_assoc] at h
            injection h with h1 _
            exact absurd h1 (by decide)
    | cons k1 v1 ds1 =>
        cases d2 with
        | nil =>
            exfalso
            simp only [serDict, escapeStr, List.nil_append, List.cons_append,
              List.append_assoc] at h
            injection h with h1 _
            exact absurd h1 (by decide)
        | cons k2 v2 ds2 =>
            simp only [serDict, List.cons_append, List.append_assoc] at h
            simp only [noObjD, Bool.and_eq_true] at hno1 hno2
            obtain ⟨hk, hrest⟩ := escapeStr_inj h
            simp only [List.cons.injEq, true_and] at hrest
            have hlt1 : sizeOf v1 < N := by
              have h' := hsz
              simp at h'
              omega
            have hlt2 : sizeOf ds1 < N := by
              have h' := hsz
              simp at h'
              omega
            obtain ⟨hv, htails⟩ := (IH (sizeOf v1) hlt1).1 v1 (le_refl _) v2 _ _ hno1.1 hno2.1
              (serDictRest_tailOK ds1 r1) (serDictRest_tailOK ds2 r2) hrest
            obtain ⟨hds, hr⟩ := (IH (sizeOf ds1) hlt2).2.2.2.2 ds1 (le_refl _) ds2 r1 r2
              hno1.2 hno2.2 htails
            exact ⟨by rw [hk, hv, hds], hr⟩
  · -- serDictRest
    intro d1 hsz d2 r1 r2 hno1 hno2 h
    cases d1 with
    | nil =>
        cases d2 with
        | nil =>
            simp only [serDictRest, List.nil_append, List.cons.injEq, true_and] at h
            exact ⟨rfl, h⟩
        | cons k2 v2 ds2 =>
            exfalso
            simp only [serDictRest, List.nil_append, List.cons_append] at h
            injection h with h1 _
            exact absurd h1 (by decide)
    | cons k1 v1 ds1 =>
        cases d2 with
        | nil =>
            exfalso
            simp only [serDictRest, List.nil_append, List.cons_append] at h
            injection h with h1 _
            exact absurd h1 (by decide)
        | cons k2 v2 ds2 =>
            simp only [serDictRest, List.cons_append, List.append_assoc,
              List.cons.injEq, true_and] at h
            simp only [noObjD, Bool.and_eq_true] at hno1 hno2
            obtain ⟨hk, hrest⟩ := escapeStr_inj h
            simp only [List.cons.injEq, true_and] at hrest
            have hlt1 : sizeOf v1 < N := by
              have h' := hsz
              simp at h'
              omega
            have hlt2 : sizeOf ds1 < N := by
              have h' := hsz
              simp at h'
              omega
            obtain ⟨hv, htails⟩ := (IH (sizeOf v1) hlt1).1 v1 (le_refl _) v2 _ _ hno1.1 hno2.1
              (serDictRest_tailOK ds1 r1) (serDictRest_tailOK ds2 r2) hrest
            obtain ⟨hds, hr⟩ := (IH (sizeOf ds1) hlt2).2.2.2.2 ds1 (le_refl _) ds2 r1 r2
              hno1.2 hno2.2 htails
            exact ⟨by rw [hk, hv, hds], hr⟩

theorem noObjD_insertPair : ∀ (k : String) (v : Value) (d : ValueDict),
    noObj v = true → noObjD d = true → noObjD (insertPair k v d) = true
  | k, v, .nil, hv, _ => by simp [insertPair, noObjD, hv]
  | k, v, .cons k' v' rest, hv, hd => by
      simp only [noObjD, Bool.and_eq_true] at hd
      simp only [insertPair]
      by_cases hlt : strLt k' k
      · simp only [if_pos hlt, noObjD, Bool.and_eq_true]
        exact ⟨hd.1, noObjD_insertPair k v rest hv hd.2⟩
      · simp only [if_neg hlt, noObjD, Bool.and_eq_true]
        exact ⟨hv, hd.1, hd.2⟩

mutual
theorem noObj_sortDicts : ∀ v : Value, noObj v = true → noObj (sortDicts v) = true
  | .null, _ => rfl
  | .bool _, _ => rfl
  | .int _, _ => rfl
  | .str _, _ => rfl
  | .obj _, h => h
  | .list vs, h => by
      simp only [sortDicts, noObj] at h ⊢
      exact noObjL_sortDictsL vs h
  | .dict ds, h => by
      simp only [sortDicts, noObj] at h ⊢
      exact noObjD_sortDictsD ds h

theorem noObjL_sortDictsL : ∀ vs : ValueList, noObjL vs = true → noObjL (sortDictsL vs) = true
  | .nil, _ => rfl
  | .cons v vs, h => by
      simp only [noObjL, Bool.and_eq_true] at h
      simp only [sortDictsL, noObjL, Bool.and_eq_true]
      exact ⟨noObj_sortDicts v h.1, noObjL_sortDictsL vs h.2⟩

theorem noObjD_sortDictsD : ∀ ds : ValueDict, noObjD ds = true → noObjD (sortDictsD ds) = true
  | .nil, _ => rfl
  | .cons k v ds, h => by
      simp only [noObjD, Bool.and_eq_true] at h
      simp only [sortDictsD]
      exact noObjD_insertPair k (sortDicts v) (sortDictsD ds)
        (noObj_sortDicts v h.1) (noObjD_sortDictsD ds h.2)
end

theorem serRaw_inj_of_noObj {v1 v2 : Value} (h1 : noObj v1 = true)
    (h2 : noObj v2 = true) (h : serRaw v1 = serRaw v2) : v1 = v2 := by
  have := (serRawInjAux (sizeOf v1)).1 v1 (le_refl _) v2 [] [] h1 h2 tailOK_nil tailOK_nil
    (by rw [List.append_nil, List.append_nil]; exact h)
  exact this.1

/-- C3 counterexample: the canonical keys of the structurally different
inputs `x ↦ "o"` (the JSON string) and `x ↦ obj "o"` (a non-JSON object
whose `str()` rendering is `o`, serialized through `default=str`) coincide,
while the triples are not structurally equal — so key equality does *not*
imply structural equality, against the claim's "only if" direction. -/
theorem c3_canonical_key_counterexample :
    canonKey "P" "op" (.cons "x" (.str "o") .nil) =
      canonKey "P" "op" (.cons "x" (.obj "o") .nil) ∧
    ¬ structEqVal (.dict (.cons "x" (.str "o") .nil))
      (.dict (.cons "x" (.obj "o") .nil)) := by
  constructor
  · rfl
  · intro h
    simp [structEqVal, sortDicts, sortDictsD, insertPair] at h

/-- C3 amended: the canonical key is deterministic and content-based in
this sense — structurally equal triples (same provider, same operation,
same input data up to dict key ordering) always receive equal keys; and
restricted to inputs built only from JSON-native values (no foreign
objects rendered through `default=str`), two triples receive equal keys
*only if* they are structurally equal.  (Unrestricted, the "only if"
direction fails: a foreign object collides with the string equal to its
rendering, see the counterexample.) -/
theorem c3_canonical_key_content_based (c1 a1 c2 a2 : String) (p1 p2 : ValueDict) :
    (c1 = c2 → a1 = a2 → structEqVal (.dict p1) (.dict p2) →
      canonKey c1 a1 p1 = canonKey c2 a2 p2) ∧
    (noObjD p1 = true → noObjD p2 = true →
      (canonKey c1 a1 p1 = canonKey c2 a2 p2 ↔
        c1 = c2 ∧ a1 = a2 ∧ structEqVal (.dict p1) (.dict p2))) := by
  constructor
  · intro hc ha hs
    simp only [canonKey, dumps, structEqVal] at hs ⊢
    rw [hc, ha, hs]
  · intro hn1 hn2
    constructor
    · intro h
      simp only [canonKey, Prod.mk.injEq] at h
      obtain ⟨hc, ha, hd⟩ := h
      refine ⟨hc, ha, ?_⟩
      have hdata := congrArg String.data hd
      simp only [dumps] at hdata
      exact serRaw_inj_of_noObj (noObj_sortDicts _ hn1) (noObj_sortDicts _ hn2) hdata
    · intro ⟨hc, ha, hs⟩
      simp only [canonKey, dumps, structEqVal] at hs ⊢
      rw [hc, ha, hs]

/-- C3 witness: two JSON-native input maps with the same entries in
different key order are structurally equal and receive the same canonical
key through the amended equivalence. -/
theorem c3_canonical_key_content_based_witness :
    noObjD (.cons "b" (.str "x") (.cons "a" .null .nil)) = true ∧
    noObjD (.cons "a" .null (.cons "b" (.str "x") .nil)) = true ∧
    canonKey "P" "op" (.cons "b" (.str "x") (.cons "a" .null .nil)) =
      canonKey "P" "op" (.cons "a" .null (.cons "b" (.str "x") .nil)) :=
  ⟨rfl, rfl,
    ((c3_canonical_key_content_based "P" "op" "P" "op"
        (.cons "b" (.str "x") (.cons "a" .null .nil))
        (.cons "a" .null (.cons "b" (.str "x") .nil))).2 rfl rfl).mpr
      ⟨rfl, rfl, by unfold structEqVal; decide⟩⟩
